import Mathlib

set_option maxHeartbeats 1000000

/-!
Shallow embedding of the `code_translator` package (parser.py, processor.py,
translator.py) together with proofs about its extraction, reconstruction,
translation and statistics behaviour.

Python `str` values are modelled as `List Char`; Python string slicing,
`split('\n')`, `strip()`, `find`/`rfind` are modelled by the `py*` helpers
below.  Python regular-expression scanning (`finditer`) is modelled by
deterministic scanners that are faithful to the specific patterns the source
registers (the patterns involve no genuine backtracking).  `str.strip()` is
modelled with `Char.isWhitespace` (space, tab, CR, LF), which covers every
whitespace character the repository's inputs use.
-/

namespace CodeTranslator

/-- Python `str`, modelled as a list of Unicode scalar values. -/
abbrev PyStr := List Char

/-- Literal helper: a Lean string literal viewed as a Python string. -/
def pystr (s : String) : PyStr := s.toList

/-- The single-quote character (written via its code point). -/
def sqChar : Char := Char.ofNat 39

/-- The backtick character (written via its code point). -/
def btChar : Char := Char.ofNat 96

/-- Python `content.split('\n')`: always returns at least one (possibly empty) part. -/
def splitNL : PyStr → List PyStr
  | [] => [[]]
  | c :: s =>
    if c = '\n' then [] :: splitNL s
    else
      match splitNL s with
      | [] => [[c]]
      | l :: ls => (c :: l) :: ls

/-- Python `'\n'.join(lines)`. -/
def joinNL : List PyStr → PyStr
  | [] => []
  | [l] => l
  | l :: ls => l ++ '\n' :: joinNL ls

/-- Python `s.strip()` (leading and trailing whitespace removed). -/
def pyStrip (s : PyStr) : PyStr :=
  ((s.dropWhile Char.isWhitespace).reverse.dropWhile Char.isWhitespace).reverse

/-- Python `s[a:b]` for non-negative clamped bounds. -/
def pySlice (s : PyStr) (a b : Nat) : PyStr := (s.take b).drop a

/-- Python `s[:-1]`. -/
def pyDropLast (s : PyStr) : PyStr := s.take (s.length - 1)

/-- All positions (in ascending order) at which `pat` occurs in `s`. -/
def prefixPositions (pat s : PyStr) : List Nat :=
  (List.range (s.length + 1)).filter (fun i => pat.isPrefixOf (s.drop i))

/-- Python `s.find(pat)` (first occurrence), as an `Option`. -/
def pyFindStr (s pat : PyStr) : Option Nat := (prefixPositions pat s).head?

/-- Python `s.rfind(pat, 0, e)` (last occurrence fully inside `s[0:e]`), as an `Option`. -/
def pyRFindStr (s pat : PyStr) (e : Nat) : Option Nat := (prefixPositions pat (s.take e)).getLast?

/-- Python `pat in s` substring containment. -/
def pySubstrIn (pat s : PyStr) : Bool := decide (prefixPositions pat s ≠ [])

/-- Python `s.rfind(c, 0, e)` for a single character. -/
def pyRFindChar (s : PyStr) (c : Char) (e : Nat) : Option Nat := pyRFindStr s [c] e

/-- `content[:pos].count('\n')`: the zero-based line number of position `pos`. -/
def lineNum (content : PyStr) (pos : Nat) : Nat := (content.take pos).count '\n'

/-- `pos - content.rfind('\n', 0, pos) - 1`: the column of `pos` within its line. -/
def colOf (content : PyStr) (pos : Nat) : Nat :=
  ((content.take pos).reverse.takeWhile (fun c => c ≠ '\n')).length

/-- `sum(len(line) + 1 for line in content.split('\n')[:k])`: byte offset of the
start of line `k` (one past the end for `k` = number of lines). -/
def lineStartPos (content : PyStr) (k : Nat) : Nat :=
  (((splitNL content).take k).map (fun l => l.length + 1)).sum

/-! ### Script predicate (`CodeParser.contains_non_ascii`) -/

/-- One character of the registered foreign-script ranges (CJK Unified
Ideographs, Hiragana/Katakana, Hangul), exactly the three range checks of
`contains_non_ascii`. -/
def isForeignChar (c : Char) : Bool :=
  decide ((0x4e00 ≤ c.toNat ∧ c.toNat ≤ 0x9fff) ∨
          (0x3040 ≤ c.toNat ∧ c.toNat ≤ 0x30ff) ∨
          (0xac00 ≤ c.toNat ∧ c.toNat ≤ 0xd7af))

/-- `CodeParser.contains_non_ascii`. -/
def contains_non_ascii (s : PyStr) : Bool := s.any isForeignChar

/-! ### Regex scanners

Each registered pattern is one of: a per-line marker search (`#(.*)$`,
`//(.*)$`, `///(.*)$` with `re.MULTILINE`), a delimiter pair with non-greedy
body (`/\*(.*?)\*/`, `/\*\*(.*?)\*/` with `re.DOTALL`), the docstring
alternation (`"""(.*?)"""|'''(.*?)'''` with `re.DOTALL`), or a string-literal
alternation of branches of the form `q([^q\\(\n)]|\\.)*q` (and Go's escape-free
backtick form).  For these patterns `finditer`'s leftmost, non-overlapping
match semantics reduce to the deterministic scanners below. -/

/-- One alternative of a string-literal pattern: its quote character, whether
`\\.` escapes are part of the body, and whether the body character class
admits newlines. -/
structure StrBranch where
  quote : Char
  escapes : Bool
  allowNL : Bool
deriving DecidableEq

/-- Scan the body of a string literal after its opening quote.  Returns the
body (with escape sequences kept verbatim) and the remainder after the closing
quote, or `none` when the literal never closes. -/
def scanBody (b : StrBranch) : PyStr → Option (PyStr × PyStr)
  | [] => none
  | c :: rest =>
    if c = b.quote then some ([], rest)
    else if b.escapes ∧ c = '\\' then
      match rest with
      | [] => none
      | c2 :: rest2 =>
        if c2 = '\n' then none
        else
          match scanBody b rest2 with
          | some (body, rem) => some (c :: c2 :: body, rem)
          | none => none
    else if ¬ b.allowNL ∧ c = '\n' then none
    else
      match scanBody b rest with
      | some (body, rem) => some (c :: body, rem)
      | none => none

/-- First branch whose quote character is `c` (regex alternation order). -/
def branchFor (branches : List StrBranch) (c : Char) : Option StrBranch :=
  branches.find? (fun b => b.quote = c)

/-- `finditer` of the string-literal pattern: `pos` is the absolute position of
the suffix `s`; `fuel` bounds the scan (callers pass the content length).
Each match is `(start, end, inner)` with `inner` the text between the quotes. -/
def strScan (branches : List StrBranch) : Nat → Nat → PyStr → List (Nat × Nat × PyStr)
  | 0, _, _ => []
  | fuel + 1, pos, s =>
    match s with
    | [] => []
    | c :: rest =>
      match branchFor branches c with
      | some b =>
        match scanBody b rest with
        | some (body, rem) =>
          (pos, pos + body.length + 2, body) :: strScan branches fuel (pos + body.length + 2) rem
        | none => strScan branches fuel (pos + 1) rest
      | none => strScan branches fuel (pos + 1) rest

/-- All matches of the string-literal pattern over `content`. -/
def stringMatches (branches : List StrBranch) (content : PyStr) : List (Nat × Nat × PyStr) :=
  strScan branches content.length 0 content

/-- `finditer` of a delimiter-pair pattern (`/\*(.*?)\*/` etc., DOTALL):
non-greedy body up to the first closing token. -/
def pairScan (openTok closeTok : PyStr) : Nat → Nat → PyStr → List (Nat × Nat × PyStr)
  | 0, _, _ => []
  | fuel + 1, pos, s =>
    if openTok.isPrefixOf s then
      match pyFindStr (s.drop openTok.length) closeTok with
      | some k =>
        (pos, pos + openTok.length + k + closeTok.length, (s.drop openTok.length).take k)
          :: pairScan openTok closeTok fuel (pos + openTok.length + k + closeTok.length)
               ((s.drop openTok.length).drop (k + closeTok.length))
      | none =>
        match s with
        | [] => []
        | _ :: rest => pairScan openTok closeTok fuel (pos + 1) rest
    else
      match s with
      | [] => []
      | _ :: rest => pairScan openTok closeTok fuel (pos + 1) rest

/-- The `"""` delimiter. -/
def tripleD : PyStr := ['"', '"', '"']

/-- The `'''` delimiter. -/
def tripleS : PyStr := [sqChar, sqChar, sqChar]

/-- `finditer` of the docstring alternation `"""(.*?)"""|'''(.*?)'''` (DOTALL).
Matches carry the two capture groups (`group(1)` from the `"""` branch,
`group(2)` from the `'''` branch). -/
def dsScan : Nat → Nat → PyStr → List (Nat × Nat × Option PyStr × Option PyStr)
  | 0, _, _ => []
  | fuel + 1, pos, s =>
    if tripleD.isPrefixOf s then
      match pyFindStr (s.drop 3) tripleD with
      | some k =>
        (pos, pos + k + 6, some ((s.drop 3).take k), none)
          :: dsScan fuel (pos + k + 6) ((s.drop 3).drop (k + 3))
      | none =>
        match s with
        | [] => []
        | _ :: rest => dsScan fuel (pos + 1) rest
    else if tripleS.isPrefixOf s then
      match pyFindStr (s.drop 3) tripleS with
      | some k =>
        (pos, pos + k + 6, none, some ((s.drop 3).take k))
          :: dsScan fuel (pos + k + 6) ((s.drop 3).drop (k + 3))
      | none =>
        match s with
        | [] => []
        | _ :: rest => dsScan fuel (pos + 1) rest
    else
      match s with
      | [] => []
      | _ :: rest => dsScan fuel (pos + 1) rest

/-- `finditer` of a MULTILINE line-marker pattern (`#(.*)$`, `//(.*)$`,
`///(.*)$`): one match per line containing the marker, at the first marker
occurrence, extending to the end of the line. `off` is the byte offset of the
first line of `ls`. -/
def lineScan (marker : PyStr) : Nat → List PyStr → List (Nat × Nat × PyStr)
  | _, [] => []
  | off, line :: rest =>
    (match pyFindStr line marker with
     | some i => [(off + i, off + line.length, line.drop (i + marker.length))]
     | none => []) ++ lineScan marker (off + line.length + 1) rest

/-- All matches of a line-comment pattern over `content`. -/
def lineCommentMatches (marker content : PyStr) : List (Nat × Nat × PyStr) :=
  lineScan marker 0 (splitNL content)

/-! ### Language grammar registry (`CodeParser.PATTERNS`, `LANGUAGE_EXTENSIONS`) -/

/-- The registered languages. -/
inductive Lang
  | python
  | javascript
  | java
  | go
  | rust
deriving DecidableEq

/-- The pattern set registered for one language. -/
structure PatternSet where
  lineComment : Option PyStr
  hasBlockComment : Bool
  hasDocstring : Bool
  hasJavadoc : Bool
  docComment : Option PyStr
  stringBranches : List StrBranch
deriving DecidableEq

/-- `CodeParser.PATTERNS`. -/
def PATTERNS : Lang → PatternSet
  | .python =>
      ⟨some (pystr "#"), false, true, false, none,
        [⟨'"', true, false⟩, ⟨sqChar, true, false⟩]⟩
  | .javascript =>
      ⟨some (pystr "//"), true, false, false, none,
        [⟨'"', true, true⟩, ⟨sqChar, true, true⟩, ⟨btChar, true, true⟩]⟩
  | .java =>
      ⟨some (pystr "//"), true, false, true, none, [⟨'"', true, true⟩]⟩
  | .go =>
      ⟨some (pystr "//"), true, false, false, none,
        [⟨'"', true, true⟩, ⟨btChar, false, true⟩]⟩
  | .rust =>
      ⟨some (pystr "//"), true, false, false, some (pystr "///"),
        [⟨'"', true, true⟩]⟩

/-- `CodeParser.detect_language`, keyed by the lower-cased file extension. -/
def detect_language (suffix : String) : Option Lang :=
  if suffix = ".py" then some .python
  else if suffix = ".js" ∨ suffix = ".jsx" ∨ suffix = ".ts" ∨ suffix = ".tsx" ∨
          suffix = ".c" ∨ suffix = ".cpp" ∨ suffix = ".cc" ∨ suffix = ".h" ∨ suffix = ".hpp" then
    some .javascript
  else if suffix = ".java" then some .java
  else if suffix = ".go" then some .go
  else if suffix = ".rs" then some .rust
  else none

/-! ### Code elements (`CodeElement`, `ElementType`) -/

/-- `ElementType`. -/
inductive ElementType
  | comment
  | docstring
  | stringLiteral
  | identifier
deriving DecidableEq

/-- `ElementType.value` (the Python enum's string payload). -/
def ElementType.value : ElementType → PyStr
  | .comment => pystr "comment"
  | .docstring => pystr "docstring"
  | .stringLiteral => pystr "string_literal"
  | .identifier => pystr "identifier"

/-- `CodeElement`. -/
structure CodeElement where
  type : ElementType
  text : PyStr
  start_line : Nat
  end_line : Nat
  start_col : Nat
  end_col : Nat
  original_text : PyStr
deriving DecidableEq

/-! ### Extraction (`CodeParser.extract_comments_and_docstrings`,
`CodeParser.extract_all_translatable`) -/

/-- The exception Python raises for `match.group(2)` on a one-group pattern. -/
inductive ParseErr
  | noSuchGroup
deriving DecidableEq

/-- `match.group(1) if match.group(1) else (match.group(2) or "")`, where
`twoGroups` records whether the pattern defines a second capture group; when it
does not, Python raises `IndexError: no such group`. -/
def groupText (twoGroups : Bool) (g1 g2 : Option PyStr) : Except ParseErr PyStr :=
  match g1 with
  | some t =>
    if t ≠ [] then .ok t
    else if twoGroups then .ok (g2.getD []) else .error .noSuchGroup
  | none => if twoGroups then .ok (g2.getD []) else .error .noSuchGroup

/-- The comment elements found by the line-comment loop of
`extract_comments_and_docstrings`. -/
def lineElements (content marker : PyStr) : List CodeElement :=
  (lineCommentMatches marker content).filterMap fun m =>
    let ctext := pyStrip m.2.2
    if contains_non_ascii ctext then
      let ln := lineNum content m.1
      some { type := .comment, text := ctext, start_line := ln, end_line := ln,
             start_col := colOf content m.1, end_col := colOf content m.2.1,
             original_text := (splitNL content).getD ln [] }
    else none

/-- One pattern of the second extraction loop (`['block_comment', 'docstring',
'javadoc', 'doc_comment']`). -/
inductive SecondPat
  | blockComment
  | docstring
  | javadoc
  | docComment (marker : PyStr)
deriving DecidableEq

/-- Whether the pattern's regex defines two capture groups (only the docstring
alternation does). -/
def SecondPat.twoGroups : SecondPat → Bool
  | .docstring => true
  | _ => false

/-- `'doc' in pattern_name`: such matches become `DOCSTRING` elements. -/
def SecondPat.isDoc : SecondPat → Bool
  | .blockComment => false
  | _ => true

/-- Raw matches of one second-loop pattern: `(start, end, group1, group2)`. -/
def secondMatches (content : PyStr) : SecondPat → List (Nat × Nat × Option PyStr × Option PyStr)
  | .blockComment =>
    (pairScan (pystr "/*") (pystr "*/") content.length 0 content).map
      (fun m => (m.1, m.2.1, some m.2.2, none))
  | .docstring => dsScan content.length 0 content
  | .javadoc =>
    (pairScan (pystr "/**") (pystr "*/") content.length 0 content).map
      (fun m => (m.1, m.2.1, some m.2.2, none))
  | .docComment marker =>
    (lineCommentMatches marker content).map (fun m => (m.1, m.2.1, some m.2.2, none))

/-- Elements produced (in match order) by one second-loop pattern; the first
empty `group(1)` of a one-group pattern raises. -/
def secondElemsOfMatches (content : PyStr) (p : SecondPat) :
    List (Nat × Nat × Option PyStr × Option PyStr) → Except ParseErr (List CodeElement)
  | [] => .ok []
  | (ms, me, g1, g2) :: rest => do
    let t ← groupText p.twoGroups g1 g2
    let tail ← secondElemsOfMatches content p rest
    let ctext := pyStrip t
    if contains_non_ascii ctext then
      .ok ({ type := if p.isDoc then ElementType.docstring else ElementType.comment,
             text := ctext,
             start_line := lineNum content ms, end_line := lineNum content me,
             start_col := colOf content ms, end_col := colOf content me,
             original_text := pySlice content ms me } :: tail)
    else .ok tail

/-- The second extraction loop over the present patterns, in the source's
fixed order. -/
def secondElems (content : PyStr) : List SecondPat → Except ParseErr (List CodeElement)
  | [] => .ok []
  | p :: ps => do
    let es ← secondElemsOfMatches content p (secondMatches content p)
    let rest ← secondElems content ps
    .ok (es ++ rest)

/-- The second-loop patterns present for a pattern set, in iteration order. -/
def secondPats (ps : PatternSet) : List SecondPat :=
  (if ps.hasBlockComment then [SecondPat.blockComment] else []) ++
  (if ps.hasDocstring then [SecondPat.docstring] else []) ++
  (if ps.hasJavadoc then [SecondPat.javadoc] else []) ++
  (match ps.docComment with
   | some m => [SecondPat.docComment m]
   | none => [])

/-- `CodeParser.extract_comments_and_docstrings`. -/
def extract_comments_and_docstrings (content : PyStr) (lang : Lang) :
    Except ParseErr (List CodeElement) := do
  let ps := PATTERNS lang
  let lineEs :=
    match ps.lineComment with
    | some m => lineElements content m
    | none => []
  let rest ← secondElems content (secondPats ps)
  .ok (lineEs ++ rest)

/-- The covered byte ranges (full-line spans of the already-extracted
comment/docstring elements) that string matches are tested against. -/
def coveredRanges (content : PyStr) (elements : List CodeElement) : List (Nat × Nat) :=
  elements.map
    (fun e => (lineStartPos content e.start_line, lineStartPos content (e.end_line + 1)))

/-- The string-literal elements the aggressive pass adds: uncovered matches
whose inner text passes the script predicate. -/
def stringElems (content : PyStr) (lang : Lang) (elements : List CodeElement) :
    List CodeElement :=
  (stringMatches (PATTERNS lang).stringBranches content).filterMap fun m =>
    if (coveredRanges content elements).any
        (fun r => decide (r.1 ≤ m.1) && decide (m.2.1 ≤ r.2)) then none
    else if contains_non_ascii m.2.2 then
      let ln := lineNum content m.1
      some { type := ElementType.stringLiteral, text := m.2.2,
             start_line := ln, end_line := ln,
             start_col := colOf content m.1, end_col := colOf content m.2.1,
             original_text := (splitNL content).getD ln [] }
    else none

/-- `CodeParser.extract_all_translatable`. -/
def extract_all_translatable (content : PyStr) (lang : Lang) :
    Except ParseErr (List CodeElement) := do
  let elements ← extract_comments_and_docstrings content lang
  .ok (elements ++ stringElems content lang elements)

/-! ### Reconstruction (`FileProcessor._reconstruct_file`) -/

/-- The `//` marker. -/
def dblSlash : PyStr := pystr "//"

/-- Docstring quote-style detection from the original opening line
(`"'''" in line` wins, else `"""`). -/
def dsQuote (line : PyStr) : PyStr := if pySubstrIn tripleS line then tripleS else tripleD

/-- `line[:indent]` where `indent = len(line) - len(line.lstrip())`. -/
def dsIndentStr (line : PyStr) : PyStr := line.takeWhile Char.isWhitespace

/-- `line[:line.find(quote_style)]` (Python's `find` returns `-1`, hence
`line[:-1]`, when the quote is absent). -/
def dsOpenPre (line : PyStr) : PyStr :=
  match pyFindStr line (dsQuote line) with
  | some i => line.take i
  | none => pyDropLast line

/-- One interior line of a rewritten multi-line docstring. -/
def dsBodyLine (line l : PyStr) : PyStr :=
  if pyStrip l ≠ [] then dsIndentStr line ++ l else []

/-- The replacement block for a multi-line docstring. -/
def dsBlock (line t : PyStr) : List PyStr :=
  (dsOpenPre line ++ dsQuote line)
    :: ((splitNL t).map (dsBodyLine line) ++ [dsIndentStr line ++ dsQuote line])

/-- One splice of `_reconstruct_file`'s loop body applied to the current line
list.  The `.stringLiteral` branch embeds only the live path: `CodeElement` is
a dataclass declaring `start_col`/`end_col`, so Python's
`hasattr(element, 'start_col')` test is always true and the `replace` fallback
is dead code.  The `none` cases of the `rfind` fallbacks are unreachable
(membership in the probed slice guarantees `rfind` succeeds). -/
def reconstructStep (lines : List PyStr) (e : CodeElement) (t : PyStr) : List PyStr :=
  match e.type with
  | .comment =>
    if e.start_line < lines.length then
      let line := lines.getD e.start_line []
      let cs := e.start_col
      if cs < line.length then
        if pySlice line cs (cs + 2) = dblSlash then
          lines.set e.start_line (line.take (cs + 2) ++ ' ' :: t)
        else if line.getD cs ' ' = '#' then
          lines.set e.start_line (line.take (cs + 1) ++ ' ' :: t)
        else if (pySlice line (cs - 2) (cs + 3)).contains '#' then
          match pyRFindChar line '#' (cs + 3) with
          | some idx => lines.set e.start_line (line.take (idx + 1) ++ ' ' :: t)
          | none => lines
        else if pySubstrIn dblSlash (pySlice line (cs - 2) (cs + 4)) then
          match pyRFindStr line dblSlash (cs + 4) with
          | some idx => lines.set e.start_line (line.take (idx + 2) ++ ' ' :: t)
          | none => lines
        else lines
      else lines
    else lines
  | .docstring =>
    if e.start_line < lines.length then
      let line := lines.getD e.start_line []
      if e.start_line = e.end_line then
        lines.set e.start_line (dsIndentStr line ++ dsQuote line ++ t ++ dsQuote line)
      else
        lines.take e.start_line ++ dsBlock line t
          ++ lines.drop (max e.start_line (e.end_line + 1))
    else lines
  | .stringLiteral =>
    if e.start_line < lines.length then
      let line := lines.getD e.start_line []
      let qc := if e.start_col < line.length then line.getD e.start_col ' ' else '"'
      lines.set e.start_line
        (line.take e.start_col ++ qc :: (t ++ qc :: line.drop e.end_col))
    else lines
  | .identifier => lines

/-- Stable insertion keeping `start_line` descending (a later element goes
after earlier elements with the same or a larger `start_line`). -/
def insertDesc (p : CodeElement × PyStr) :
    List (CodeElement × PyStr) → List (CodeElement × PyStr)
  | [] => [p]
  | q :: qs =>
    if p.1.start_line ≤ q.1.start_line then q :: insertDesc p qs else p :: q :: qs

/-- `sorted(translated_elements, key=lambda x: x[0].start_line, reverse=True)`:
a stable sort by `start_line` descending. -/
def sortDesc (ps : List (CodeElement × PyStr)) : List (CodeElement × PyStr) :=
  ps.foldl (fun acc p => insertDesc p acc) []

/-- The line list after all splices of `_reconstruct_file`. -/
def reconstructLines (content : PyStr) (pairs : List (CodeElement × PyStr)) : List PyStr :=
  (sortDesc pairs).foldl (fun ls p => reconstructStep ls p.1 p.2) (splitNL content)

/-- `FileProcessor._reconstruct_file`. -/
def reconstruct_file (content : PyStr) (pairs : List (CodeElement × PyStr)) : PyStr :=
  joinNL (reconstructLines content pairs)

/-! ### Translator (`LocalTranslator.translate`)

The Ollama collaborator is opaque: it is modelled as a function from the built
prompt and the `num_predict` option to either a response or an exception.
(`model` and `temperature` are passed through to the collaborator unchanged and
play no role in the claims; `temperature` is a float and is not modelled.) -/

/-- `TranslationConfig` (the fields `translate` reads). -/
structure TranslationConfig where
  source_lang : PyStr := pystr "Chinese"
  target_lang : PyStr := pystr "English"
  max_text_length : Nat := 10000
  max_num_predict : Nat := 4096
deriving DecidableEq

/-- The external translation engine: prompt and `num_predict` to response, or
an arbitrary exception. -/
abbrev Engine := PyStr → Nat → Except Unit PyStr

/-- The prompt `translate` builds. -/
def buildPrompt (cfg : TranslationConfig) (context : Option PyStr) (text : PyStr) : PyStr :=
  pystr "Translate the following " ++ cfg.source_lang ++ pystr " text to " ++
    cfg.target_lang ++ pystr ". " ++
    pystr "Preserve all formatting, line breaks, and special characters." ++
    (match context with
     | some c => pystr " This is a " ++ c ++ pystr "."
     | none => []) ++
    pystr "\n\nText to translate:\n" ++ text ++ pystr "\n\nTranslation:"

/-- `LocalTranslator.translate`. -/
def translate (cfg : TranslationConfig) (engine : Engine) (text : PyStr)
    (context : Option PyStr) : PyStr :=
  if pyStrip text = [] then text
  else
    let text := if text.length > cfg.max_text_length then text.take cfg.max_text_length else text
    match engine (buildPrompt cfg context text) (min (text.length * 2) cfg.max_num_predict) with
    | .ok response => pyStrip response
    | .error _ => text

/-! ### Processing (`FileProcessor.process_file`, `ProcessingStats`)

`ProcessingStats.errors` is modelled by its length (the claims only count
errors).  A file is modelled by the attributes `process_file` consults: its
lower-cased extension, size, whether `stat`/`read_text`/`write_text` succeed,
and its decoded content.  The returned summary dictionary is not modelled; the
second component of the result is the write effect (`some new_content` exactly
when the file is rewritten on disk). -/

/-- `ProcessingStats`. -/
structure ProcessingStats where
  files_scanned : Nat := 0
  files_with_foreign_text : Nat := 0
  files_translated : Nat := 0
  elements_translated : Nat := 0
  files_skipped : Nat := 0
  errors : Nat := 0
deriving DecidableEq

/-- `FileProcessor.SKIP_EXTENSIONS`. -/
def SKIP_EXTENSIONS : List String :=
  [".pyc", ".pyo", ".so", ".dll", ".exe", ".bin", ".obj",
   ".jpg", ".jpeg", ".png", ".gif", ".bmp", ".ico", ".svg",
   ".mp3", ".mp4", ".avi", ".mov", ".wav",
   ".zip", ".tar", ".gz", ".rar", ".7z",
   ".pdf", ".doc", ".docx"]

/-- One input file as `process_file` observes it. -/
structure FileInput where
  suffix : String
  size : Nat
  statOk : Bool
  readable : Bool
  content : PyStr
  writeOk : Bool
deriving DecidableEq

/-- `FileProcessor.should_skip_file` (the Boolean part of its result). -/
def should_skip_file (f : FileInput) : Bool :=
  decide (f.suffix ∈ SKIP_EXTENSIONS) || (detect_language f.suffix).isNone ||
    !f.statOk || decide (f.size > 1024 * 1024)

/-- The translator collaborator as the processor sees it:
`translate(element.text, context=element.type.value)`. -/
abbrev Translator := PyStr → Option PyStr → PyStr

/-- Extraction in the configured mode. -/
def extractFor (translate_all : Bool) (content : PyStr) (lang : Lang) :
    Except ParseErr (List CodeElement) :=
  if translate_all then extract_all_translatable content lang
  else extract_comments_and_docstrings content lang

/-- `FileProcessor.process_file`, including the per-task exception handler of
`process_directory` (an exception escaping `process_file` — extraction's
`IndexError` — is appended to the shared error list there). -/
def process_file (tr : Translator) (translate_all dry_run : Bool) (f : FileInput)
    (st : ProcessingStats) : ProcessingStats × Option PyStr :=
  let st := { st with files_scanned := st.files_scanned + 1 }
  if should_skip_file f then
    ({ st with files_skipped := st.files_skipped + 1 }, none)
  else if !f.readable then
    ({ st with files_skipped := st.files_skipped + 1, errors := st.errors + 1 }, none)
  else
    match detect_language f.suffix with
    | none => ({ st with files_skipped := st.files_skipped + 1 }, none)
    | some lang =>
      match extractFor translate_all f.content lang with
      | .error _ => ({ st with errors := st.errors + 1 }, none)
      | .ok elements =>
        if elements = [] then (st, none)
        else
          let st := { st with files_with_foreign_text := st.files_with_foreign_text + 1 }
          let translated := elements.map (fun e => (e, tr e.text (some e.type.value)))
          let st := { st with elements_translated := st.elements_translated + translated.length }
          let newContent := reconstruct_file f.content translated
          if dry_run then (st, none)
          else if f.writeOk then
            ({ st with files_translated := st.files_translated + 1 }, some newContent)
          else ({ st with errors := st.errors + 1 }, none)

/-- A full run over a batch of files (statistics aggregate; the per-file
counter updates are lock-guarded and commutative, so the concurrent aggregate
equals this sequential fold). -/
def process_batch (tr : Translator) (translate_all dry_run : Bool)
    (files : List FileInput) : ProcessingStats :=
  files.foldl (fun st f => (process_file tr translate_all dry_run f st).1) {}

/-! ### Derived predicates referenced by the theorems -/

/-- The text `translate` returns when every engine call fails: the original
text, truncated to `max_text_length` when longer (empty/whitespace text is
returned before the engine is consulted). -/
def failSubstitute (cfg : TranslationConfig) (t : PyStr) : PyStr :=
  if pyStrip t = [] then t
  else if t.length > cfg.max_text_length then t.take cfg.max_text_length else t

/-- An element's source occurrence is in the reconstructor's own normal form
with respect to the original line list: a comment's marker sits at `start_col`
and is followed by exactly one space and then exactly the element text to the
end of the line; a single-line docstring's line is its indentation, the
detected delimiter, the text and the delimiter; a multi-line docstring's line
range equals the block the reconstructor emits; a string literal's quotes sit
at `start_col` and `end_col - 1` and enclose exactly the element text. -/
def canonicalElem (lines : List PyStr) (e : CodeElement) : Bool :=
  match e.type with
  | .identifier => true
  | .comment =>
    decide (e.start_line < lines.length) &&
    (let line := lines.getD e.start_line []
     decide (e.start_col < line.length) &&
     ((decide (pySlice line e.start_col (e.start_col + 2) = dblSlash) &&
       decide (line = line.take (e.start_col + 2) ++ ' ' :: e.text)) ||
      (decide (line.getD e.start_col ' ' = '#') &&
       decide (line = line.take (e.start_col + 1) ++ ' ' :: e.text))))
  | .docstring =>
    decide (e.start_line < lines.length) &&
    (let line := lines.getD e.start_line []
     if e.start_line = e.end_line then
       decide (line = dsIndentStr line ++ dsQuote line ++ e.text ++ dsQuote line)
     else
       decide (e.start_line < e.end_line) && decide (e.end_line < lines.length) &&
       decide ((lines.take (e.end_line + 1)).drop e.start_line = dsBlock line e.text))
  | .stringLiteral =>
    decide (e.start_line < lines.length) &&
    (let line := lines.getD e.start_line []
     decide (e.start_col < line.length) &&
     decide (line = line.take e.start_col ++ line.getD e.start_col ' ' ::
               (e.text ++ line.getD e.start_col ' ' :: line.drop e.end_col)))

/-- A pair the frame theorem covers: a single-line element on a valid line,
with the comment marker actually at `start_col` (comments), or valid columns
(string literals), or a single-line range (docstrings). -/
def validPair (lines : List PyStr) (p : CodeElement × PyStr) : Bool :=
  match p.1.type with
  | .comment =>
    decide (p.1.start_line < lines.length) &&
    (let line := lines.getD p.1.start_line []
     decide (p.1.start_col < line.length) &&
     (decide (pySlice line p.1.start_col (p.1.start_col + 2) = dblSlash) ||
      decide (line.getD p.1.start_col ' ' = '#')))
  | .docstring =>
    decide (p.1.start_line = p.1.end_line) && decide (p.1.start_line < lines.length)
  | .stringLiteral =>
    decide (p.1.start_line = p.1.end_line) && decide (p.1.start_line < lines.length) &&
    decide (p.1.start_col < (lines.getD p.1.start_line []).length)
  | .identifier => false

/-- The line a valid single-line pair leaves at its `start_line`, computed from
the ORIGINAL line: the prefix up to and including the marker plus a space and
the translation (comments), indentation and delimiters around the translation
(single-line docstrings), or the original prefix before `start_col`, the
original quote character, the translation, the quote character again and the
original suffix from `end_col` (string literals). -/
def expectedLine (line : PyStr) (e : CodeElement) (t : PyStr) : PyStr :=
  match e.type with
  | .comment =>
    if pySlice line e.start_col (e.start_col + 2) = dblSlash then
      line.take (e.start_col + 2) ++ ' ' :: t
    else
      line.take (e.start_col + 1) ++ ' ' :: t
  | .docstring => dsIndentStr line ++ dsQuote line ++ t ++ dsQuote line
  | .stringLiteral =>
    line.take e.start_col ++ line.getD e.start_col ' ' ::
      (t ++ line.getD e.start_col ' ' :: line.drop e.end_col)
  | .identifier => line

/-- Whether a file reaches extraction and extraction finds at least one
element (the exact condition under which `process_file` increments
`files_with_foreign_text`). -/
def fileYieldsElements (translate_all : Bool) (f : FileInput) : Bool :=
  !should_skip_file f && f.readable &&
  (match detect_language f.suffix with
   | none => false
   | some lang =>
     match extractFor translate_all f.content lang with
     | .error _ => false
     | .ok es => decide (es ≠ []))

/-! ### Concrete inputs used by counterexamples and witnesses -/

/-- A Python line whose comment marker is NOT followed by a space. -/
def c1Content : PyStr := pystr "#你好"

/-- The single element extraction finds in `c1Content`. -/
def c1Elem : CodeElement := ⟨.comment, pystr "你好", 0, 0, 0, 3, pystr "#你好"⟩

/-- A Python line holding two foreign string literals. -/
def c2Content : PyStr := pystr "a = \"你\" ; b = \"好\""

/-- The first (leftmost) string literal of `c2Content`. -/
def c2Elem1 : CodeElement := ⟨.stringLiteral, pystr "你", 0, 0, 4, 7, c2Content⟩

/-- The second (rightmost) string literal of `c2Content`. -/
def c2Elem2 : CodeElement := ⟨.stringLiteral, pystr "好", 0, 0, 14, 17, c2Content⟩

/-- Content whose comment and multi-line docstring are both in the
reconstructor's normal form. -/
def c1WitnessContent : PyStr := pystr "# 你好\n\"\"\"\n你好\n\"\"\""

/-- The elements extraction finds in `c1WitnessContent`, each paired with its
own text as the identity translation. -/
def c1WitnessPairs : List (CodeElement × PyStr) :=
  [(⟨.comment, pystr "你好", 0, 0, 0, 4, pystr "# 你好"⟩, pystr "你好"),
   (⟨.docstring, pystr "你好", 1, 3, 0, 3, pystr "\"\"\"\n你好\n\"\"\""⟩, pystr "你好")]

/-- Two-line content with one comment and one string literal on distinct
lines. -/
def c2WitnessContent : PyStr := pystr "# 你\ns = \"好\""

/-- The two elements of `c2WitnessContent` paired with fresh translations. -/
def c2WitnessPairs : List (CodeElement × PyStr) :=
  [(⟨.comment, pystr "你", 0, 0, 0, 3, pystr "# 你"⟩, pystr "A"),
   (⟨.stringLiteral, pystr "好", 1, 1, 4, 7, pystr "s = \"好\""⟩, pystr "B")]

/-- The spec's single-line comment scenario input. -/
def c3Content : PyStr := pystr "x = 1  # 测试"

/-- The element extraction finds in `c3Content`. -/
def c3Elem : CodeElement := ⟨.comment, pystr "测试", 0, 0, 7, 11, c3Content⟩

/-- A Python line containing the same literal text twice. -/
def c4Content : PyStr := pystr "s = \"好\" + \"好\""

/-- The second (rightmost) string literal of `c4Content`. -/
def c4Elem : CodeElement := ⟨.stringLiteral, pystr "好", 0, 0, 10, 13, c4Content⟩

/-- JavaScript content whose string literal spans two lines while a line
comment occupies the first line. -/
def c5Content : PyStr := pystr "//你 \"好\nb\""

/-- The line-comment element extracted from `c5Content`. -/
def c5CommentElem : CodeElement := ⟨.comment, pystr "你 \"好", 0, 0, 0, 6, pystr "//你 \"好"⟩

/-- The string-literal element extracted from `c5Content`: its match spans
lines 0–1 but it is recorded with `start_line = end_line = 0`. -/
def c5StringElem : CodeElement :=
  ⟨.stringLiteral, pystr "好\nb", 0, 0, 4, 2, pystr "//你 \"好"⟩

/-! ## Basic lemmas about the string model -/

theorem splitNL_ne_nil (s : PyStr) : splitNL s ≠ [] := by
  induction s with
  | nil => simp [splitNL]
  | cons c s ih =>
    simp only [splitNL]
    split
    · simp
    · cases h : splitNL s with
      | nil => simp
      | cons l ls => simp

theorem joinNL_single (a : PyStr) : joinNL [a] = a := rfl

theorem joinNL_cons_cons (a b : PyStr) (rest : List PyStr) :
    joinNL (a :: b :: rest) = a ++ '\n' :: joinNL (b :: rest) := rfl

theorem splitNL_cons_nl (s : PyStr) : splitNL ('\n' :: s) = [] :: splitNL s := by
  simp [splitNL]

theorem splitNL_cons_other {c : Char} (hc : c ≠ '\n') (s : PyStr) {l : PyStr}
    {ls : List PyStr} (h : splitNL s = l :: ls) : splitNL (c :: s) = (c :: l) :: ls := by
  simp [splitNL, hc, h]

theorem joinNL_splitNL (s : PyStr) : joinNL (splitNL s) = s := by
  induction s with
  | nil => rfl
  | cons c s ih =>
    by_cases hc : c = '\n'
    · subst hc
      rw [splitNL_cons_nl]
      cases h : splitNL s with
      | nil => exact absurd h (splitNL_ne_nil s)
      | cons l ls =>
        rw [joinNL_cons_cons, ← h, ih]
        rfl
    · cases h : splitNL s with
      | nil => exact absurd h (splitNL_ne_nil s)
      | cons l ls =>
        rw [splitNL_cons_other hc s h]
        cases ls with
        | nil =>
          rw [joinNL_single]
          have h2 := ih
          rw [h, joinNL_single] at h2
          rw [h2]
        | cons l2 ls2 =>
          rw [joinNL_cons_cons]
          have h2 := ih
          rw [h, joinNL_cons_cons] at h2
          simp only [List.cons_append]
          rw [h2]

theorem mem_of_mem_splitNL {s l : PyStr} (hl : l ∈ splitNL s) {c : Char} (hc : c ∈ l) :
    c ∈ s := by
  induction s generalizing l with
  | nil =>
    simp only [splitNL, List.mem_singleton] at hl
    subst hl
    simp at hc
  | cons d s ih =>
    by_cases hd : d = '\n'
    · subst hd
      rw [splitNL_cons_nl] at hl
      rcases List.mem_cons.mp hl with h1 | h1
      · subst h1; simp at hc
      · exact List.mem_cons_of_mem _ (ih h1 hc)
    · cases h : splitNL s with
      | nil => exact absurd h (splitNL_ne_nil s)
      | cons l0 ls =>
        rw [splitNL_cons_other hd s h] at hl
        rcases List.mem_cons.mp hl with h1 | h1
        · subst h1
          rcases List.mem_cons.mp hc with h2 | h2
          · subst h2; exact List.mem_cons_self _ _
          · exact List.mem_cons_of_mem _ (ih (h ▸ List.mem_cons_self l0 ls) h2)
        · exact List.mem_cons_of_mem _ (ih (h ▸ List.mem_cons_of_mem l0 h1) hc)

theorem mem_of_mem_dropWhileWS {s : PyStr} {c : Char}
    (h : c ∈ s.dropWhile Char.isWhitespace) : c ∈ s :=
  (List.dropWhile_sublist _).mem h

theorem mem_of_mem_pyStrip {s : PyStr} {c : Char} (h : c ∈ pyStrip s) : c ∈ s := by
  unfold pyStrip at h
  rw [List.mem_reverse] at h
  have h2 := mem_of_mem_dropWhileWS h
  rw [List.mem_reverse] at h2
  exact mem_of_mem_dropWhileWS h2

theorem set_getD_self {α : Type} (l : List α) (i : Nat) (d : α) (h : i < l.length) :
    l.set i (l.getD i d) = l := by
  induction l generalizing i with
  | nil => simp at h
  | cons a l ih =>
    cases i with
    | zero => simp [List.getD]
    | succ i =>
      simp only [List.set, List.getD_cons_succ]
      rw [ih i (by simpa using h)]

theorem getD_set_ne {α : Type} (l : List α) {i j : Nat} (h : i ≠ j) (v d : α) :
    (l.set i v).getD j d = l.getD j d := by
  induction l generalizing i j with
  | nil => simp
  | cons a l ih =>
    cases i with
    | zero =>
      cases j with
      | zero => exact absurd rfl h
      | succ j => simp [List.getD]
    | succ i =>
      cases j with
      | zero => simp [List.getD]
      | succ j =>
        simp only [List.set, List.getD_cons_succ]
        exact ih (fun hh => h (by rw [hh]))

theorem getD_set_self {α : Type} (l : List α) {i : Nat} (h : i < l.length) (v d : α) :
    (l.set i v).getD i d = v := by
  induction l generalizing i with
  | nil => simp at h
  | cons a l ih =>
    cases i with
    | zero => simp [List.getD]
    | succ i =>
      simp only [List.set, List.getD_cons_succ]
      exact ih (by simpa using h)

/-! ## C10: whitespace-only input returns unchanged, engine untouched -/

/-- C10: for every configuration, every engine and every context, `translate`
on text that is empty or whitespace-only returns exactly its input; since the
statement holds for an arbitrary engine, the engine is never consulted. -/
theorem c10_translate_whitespace_identity (cfg : TranslationConfig) (engine : Engine)
    (text : PyStr) (context : Option PyStr) (h : pyStrip text = []) :
    translate cfg engine text context = text := by
  unfold translate
  rw [if_pos h]

theorem c10_witness :
    pyStrip (pystr "  \n ") = [] ∧
    translate {} (fun _ _ => Except.ok (pystr "SOMETHING")) (pystr "  \n ") none =
      pystr "  \n " :=
  ⟨by decide, c10_translate_whitespace_identity _ _ _ _ (by decide)⟩

/-! ## C9: dry-run never writes -/

/-- C9: with the dry-run flag set, `process_file` produces no write effect:
whatever the translator, mode, file and prior statistics, the on-disk content
is left unchanged. -/
theorem c9_dry_run_never_writes (tr : Translator) (translate_all : Bool)
    (f : FileInput) (st : ProcessingStats) :
    (process_file tr translate_all true f st).2 = none := by
  unfold process_file
  repeat' split
  all_goals first | rfl | simp_all

/-! ## C6: extraction on foreign-free input (code bug at `/**/`) -/

/-- C6: the claim fails on the code: the foreign-free JavaScript content
`/**/` does not yield the empty list — in both modes extraction raises
Python's `IndexError: no such group`, because `match.group(2)` is evaluated on
the one-group block-comment pattern when `group(1)` is empty. -/
theorem c6_empty_block_comment_raises :
    extract_comments_and_docstrings (pystr "/**/") Lang.javascript =
        Except.error ParseErr.noSuchGroup ∧
    extract_all_translatable (pystr "/**/") Lang.javascript =
        Except.error ParseErr.noSuchGroup ∧
    contains_non_ascii (pystr "/**/") = false :=
  ⟨rfl, rfl, rfl⟩

/-! ## C8: a failing translation engine is a soft failure -/

theorem translate_engine_fail (cfg : TranslationConfig) (engine : Engine)
    (hfail : ∀ p n, engine p n = Except.error ()) (text : PyStr) (context : Option PyStr) :
    translate cfg engine text context = failSubstitute cfg text := by
  unfold translate failSubstitute
  by_cases h : pyStrip text = []
  · rw [if_pos h, if_pos h]
  · rw [if_neg h, if_neg h]
    simp only [hfail]

/-- C8 (amended): when every engine call fails, the exception never escapes
`translate`: the text that was submitted to the engine — the element's
original text, truncated to `max_text_length` when longer — is substituted as
its translation, the file still goes through reconstruction with those
substitutes, every element is still counted in `elements_translated`, and the
file is still written. -/
theorem c8_translation_failure_soft (cfg : TranslationConfig) (engine : Engine)
    (translate_all : Bool) (f : FileInput) (st : ProcessingStats) (lang : Lang)
    (es : List CodeElement)
    (hfail : ∀ p n, engine p n = Except.error ())
    (hskip : should_skip_file f = false) (hread : f.readable = true)
    (hlang : detect_language f.suffix = some lang)
    (hex : extractFor translate_all f.content lang = Except.ok es)
    (hne : es ≠ []) (hw : f.writeOk = true) :
    process_file (fun t ctx => translate cfg engine t ctx) translate_all false f st =
      ({ st with files_scanned := st.files_scanned + 1,
                 files_with_foreign_text := st.files_with_foreign_text + 1,
                 elements_translated := st.elements_translated + es.length,
                 files_translated := st.files_translated + 1 },
       some (reconstruct_file f.content
              (es.map (fun e => (e, failSubstitute cfg e.text))))) := by
  unfold process_file
  rw [hskip, hread]
  simp only [Bool.not_true, if_neg (by simp : ¬ (false = true)), hlang, hex,
    if_neg hne, List.length_map]
  simp only [translate_engine_fail cfg engine hfail]
  simp [hw]

/-- C8 counterexample: the claim's "original untranslated text" is wrong for
over-long elements — with `max_text_length = 2` and a failing engine, the text
substituted for `你好吗` is its truncation `你好`, not the original. -/
theorem c8_counterexample :
    translate { max_text_length := 2 } (fun _ _ => Except.error ()) (pystr "你好吗") none ≠
        pystr "你好吗" ∧
    translate { max_text_length := 2 } (fun _ _ => Except.error ()) (pystr "你好吗") none =
        pystr "你好" :=
  ⟨by decide, by decide⟩

theorem c8_witness :
    (∀ p n, (fun (_ : PyStr) (_ : Nat) => (Except.error () : Except Unit PyStr)) p n =
        Except.error ()) ∧
    should_skip_file ⟨".py", 10, true, true, pystr "# 你好", true⟩ = false ∧
    extractFor false (pystr "# 你好") Lang.python =
      Except.ok [⟨ElementType.comment, pystr "你好", 0, 0, 0, 4, pystr "# 你好"⟩] ∧
    process_file
        (fun t ctx => translate {} (fun _ _ => Except.error ()) t ctx) false false
        ⟨".py", 10, true, true, pystr "# 你好", true⟩ {} =
      ({ files_scanned := 1, files_with_foreign_text := 1, files_translated := 1,
         elements_translated := 1, files_skipped := 0, errors := 0 },
       some (reconstruct_file (pystr "# 你好")
        ([⟨ElementType.comment, pystr "你好", 0, 0, 0, 4, pystr "# 你好"⟩].map
          (fun e => (e, failSubstitute {} e.text))))) := by
  refine ⟨fun _ _ => rfl, by decide, rfl, ?_⟩
  exact c8_translation_failure_soft {} (fun _ _ => Except.error ()) false
    ⟨".py", 10, true, true, pystr "# 你好", true⟩ {} Lang.python
    [⟨ElementType.comment, pystr "你好", 0, 0, 0, 4, pystr "# 你好"⟩]
    (fun _ _ => rfl) (by decide) rfl rfl rfl (by decide) rfl

/-! ## C4: positional string-literal replacement -/

/-- C4: a `StringLiteral` element is replaced positionally: the output line is
the original prefix before `start_col`, the character observed at `start_col`
(the quote), the translation, that quote character again, and the original
suffix from `end_col`; no other line and no other position changes, so a
second occurrence of the same literal text elsewhere on the line is left
untouched. -/
theorem c4_string_literal_positional (lines : List PyStr) (e : CodeElement) (t : PyStr)
    (hty : e.type = ElementType.stringLiteral)
    (hsl : e.start_line < lines.length)
    (hcs : e.start_col < (lines.getD e.start_line []).length) :
    reconstructStep lines e t =
      lines.set e.start_line
        ((lines.getD e.start_line []).take e.start_col ++
          (lines.getD e.start_line []).getD e.start_col ' ' ::
            (t ++ (lines.getD e.start_line []).getD e.start_col ' ' ::
              (lines.getD e.start_line []).drop e.end_col)) := by
  unfold reconstructStep
  rw [hty]
  simp only [if_pos hsl, if_pos hcs]

theorem c4_witness :
    c4Elem.type = ElementType.stringLiteral ∧
    c4Elem.start_line < (splitNL c4Content).length ∧
    c4Elem.start_col < ((splitNL c4Content).getD c4Elem.start_line []).length ∧
    reconstructStep (splitNL c4Content) c4Elem (pystr "X") = [pystr "s = \"好\" + \"X\""] := by
  refine ⟨rfl, by decide, by decide, ?_⟩
  rw [c4_string_literal_positional (splitNL c4Content) c4Elem (pystr "X") rfl
    (by decide) (by decide)]
  decide

/-! ## C3: comment reconstruction and the spec scenario -/

theorem slice_ne_dblSlash_of_hash {ln : PyStr} {cs : Nat} (h : cs < ln.length)
    (hh : ln.getD cs ' ' = '#') : pySlice ln cs (cs + 2) ≠ dblSlash := by
  intro heq
  have h1 : (pySlice ln cs (cs + 2)).head? = some '/' := by rw [heq]; rfl
  have h2 : (pySlice ln cs (cs + 2)).head? = ln[cs]? := by
    unfold pySlice
    rw [List.head?_drop]
    exact List.getElem?_take_of_lt (by omega)
  have h3 : ln[cs]? = some (ln.getD cs ' ') := by
    rw [List.getElem?_eq_getElem h, List.getD_eq_getElem?_getD,
      List.getElem?_eq_getElem h]
    rfl
  rw [h2, h3, hh] at h1
  exact absurd (Option.some.inj h1) (by decide)

/-- C3: comment reconstruction locates the marker at the element's recorded
`start_col`, keeps everything up to and including the marker, appends a single
space and the translation, and discards the rest of the line; on the spec's
scenario `x = 1  # 测试` with translation `TEST` the output line is
`x = 1  # TEST`. -/
theorem c3_comment_reconstruction :
    (∀ (lines : List PyStr) (e : CodeElement) (t : PyStr),
      e.type = ElementType.comment →
      e.start_line < lines.length →
      e.start_col < (lines.getD e.start_line []).length →
      (((lines.getD e.start_line []).getD e.start_col ' ' = '#' →
        reconstructStep lines e t =
          lines.set e.start_line
            ((lines.getD e.start_line []).take (e.start_col + 1) ++ ' ' :: t)) ∧
       (pySlice (lines.getD e.start_line []) e.start_col (e.start_col + 2) = dblSlash →
        reconstructStep lines e t =
          lines.set e.start_line
            ((lines.getD e.start_line []).take (e.start_col + 2) ++ ' ' :: t)))) ∧
    extract_comments_and_docstrings c3Content Lang.python = Except.ok [c3Elem] ∧
    reconstruct_file c3Content [(c3Elem, pystr "TEST")] = pystr "x = 1  # TEST" := by
  refine ⟨?_, rfl, by decide⟩
  intro lines e t hty hsl hcs
  constructor
  · intro hh
    unfold reconstructStep
    rw [hty]
    simp only [if_pos hsl, if_pos hcs,
      if_neg (slice_ne_dblSlash_of_hash hcs hh), if_pos hh]
  · intro hds
    unfold reconstructStep
    rw [hty]
    simp only [if_pos hsl, if_pos hcs, if_pos hds]

theorem c3_witness :
    c3Elem.type = ElementType.comment ∧
    c3Elem.start_line < (splitNL c3Content).length ∧
    c3Elem.start_col < ((splitNL c3Content).getD c3Elem.start_line []).length ∧
    ((splitNL c3Content).getD c3Elem.start_line []).getD c3Elem.start_col ' ' = '#' ∧
    reconstructStep (splitNL c3Content) c3Elem (pystr "TEST") = [pystr "x = 1  # TEST"] := by
  refine ⟨rfl, by decide, by decide, by decide, ?_⟩
  rw [(c3_comment_reconstruction.1 (splitNL c3Content) c3Elem (pystr "TEST") rfl
    (by decide) (by decide)).1 (by decide)]
  decide

/-! ## C1: identity translation (amended: canonical source form) -/

theorem mem_insertDesc {p q : CodeElement × PyStr} {l : List (CodeElement × PyStr)} :
    q ∈ insertDesc p l ↔ q = p ∨ q ∈ l := by
  induction l with
  | nil => simp [insertDesc]
  | cons r rs ih =>
    unfold insertDesc
    split
    · simp only [List.mem_cons, ih]
      tauto
    · simp only [List.mem_cons]

theorem mem_sortDesc_aux {q : CodeElement × PyStr} (ps acc : List (CodeElement × PyStr)) :
    q ∈ ps.foldl (fun a p => insertDesc p a) acc ↔ q ∈ acc ∨ q ∈ ps := by
  induction ps generalizing acc with
  | nil => simp
  | cons p ps ih =>
    rw [List.foldl_cons, ih, mem_insertDesc]
    simp only [List.mem_cons]
    tauto

theorem mem_sortDesc {q : CodeElement × PyStr} {ps : List (CodeElement × PyStr)} :
    q ∈ sortDesc ps ↔ q ∈ ps := by
  unfold sortDesc
  rw [mem_sortDesc_aux]
  simp

theorem insertDesc_perm (p : CodeElement × PyStr) (l : List (CodeElement × PyStr)) :
    (insertDesc p l).Perm (p :: l) := by
  induction l with
  | nil => exact List.Perm.refl _
  | cons r rs ih =>
    unfold insertDesc
    split
    · exact ((ih.cons r).trans (List.Perm.swap p r rs))
    · exact List.Perm.refl _

theorem sortDesc_perm_aux (ps acc : List (CodeElement × PyStr)) :
    (ps.foldl (fun a p => insertDesc p a) acc).Perm (acc ++ ps) := by
  induction ps generalizing acc with
  | nil => simp
  | cons p ps ih =>
    rw [List.foldl_cons]
    refine (ih (insertDesc p acc)).trans ?_
    refine (List.Perm.append_right ps (insertDesc_perm p acc)).trans ?_
    exact List.perm_middle.symm

theorem sortDesc_perm (ps : List (CodeElement × PyStr)) : (sortDesc ps).Perm ps := by
  have h := sortDesc_perm_aux ps []
  simpa using h

theorem canonical_comment_id (lines : List PyStr) (e : CodeElement)
    (hty : e.type = ElementType.comment) (h : canonicalElem lines e = true) :
    reconstructStep lines e e.text = lines := by
  unfold canonicalElem at h
  rw [hty] at h
  simp only [Bool.and_eq_true, Bool.or_eq_true, decide_eq_true_eq] at h
  obtain ⟨hsl, hcs, hdisj⟩ := h
  unfold reconstructStep
  rw [hty]
  rcases hdisj with ⟨hdq, hline⟩ | ⟨hh, hline⟩
  · simp only [if_pos hsl, if_pos hcs, if_pos hdq]
    rw [← hline, set_getD_self _ _ _ hsl]
  · simp only [if_pos hsl, if_pos hcs,
      if_neg (slice_ne_dblSlash_of_hash hcs hh), if_pos hh]
    rw [← hline, set_getD_self _ _ _ hsl]

theorem canonical_docstring_id (lines : List PyStr) (e : CodeElement)
    (hty : e.type = ElementType.docstring) (h : canonicalElem lines e = true) :
    reconstructStep lines e e.text = lines := by
  unfold canonicalElem at h
  rw [hty] at h
  simp only [Bool.and_eq_true, decide_eq_true_eq] at h
  obtain ⟨hsl, hrest⟩ := h
  unfold reconstructStep
  rw [hty]
  by_cases heq : e.start_line = e.end_line
  · rw [if_pos heq] at hrest
    simp only [decide_eq_true_eq] at hrest
    simp only [if_pos hsl, if_pos heq]
    rw [← hrest, set_getD_self _ _ _ hsl]
  · rw [if_neg heq] at hrest
    simp only [Bool.and_eq_true, decide_eq_true_eq] at hrest
    obtain ⟨⟨hlt, hel⟩, hblock⟩ := hrest
    simp only [if_pos hsl, if_neg heq]
    have hmax : max e.start_line (e.end_line + 1) = e.end_line + 1 := by omega
    rw [hmax]
    have h1 : lines.take e.start_line = (lines.take (e.end_line + 1)).take e.start_line := by
      rw [List.take_take, min_eq_left (by omega)]
    calc lines.take e.start_line ++ dsBlock (lines.getD e.start_line []) e.text
          ++ lines.drop (e.end_line + 1)
        = lines.take e.start_line ++ (lines.take (e.end_line + 1)).drop e.start_line
          ++ lines.drop (e.end_line + 1) := by rw [hblock]
      _ = lines := by rw [h1, List.take_append_drop, List.take_append_drop]

theorem canonical_string_id (lines : List PyStr) (e : CodeElement)
    (hty : e.type = ElementType.stringLiteral) (h : canonicalElem lines e = true) :
    reconstructStep lines e e.text = lines := by
  unfold canonicalElem at h
  rw [hty] at h
  simp only [Bool.and_eq_true, decide_eq_true_eq] at h
  obtain ⟨hsl, hcs, hline⟩ := h
  unfold reconstructStep
  rw [hty]
  simp only [if_pos hsl, if_pos hcs]
  rw [← hline, set_getD_self _ _ _ hsl]

theorem reconstructStep_canonical_id (lines : List PyStr) (e : CodeElement)
    (h : canonicalElem lines e = true) : reconstructStep lines e e.text = lines := by
  cases hty : e.type with
  | comment => exact canonical_comment_id lines e hty h
  | docstring => exact canonical_docstring_id lines e hty h
  | stringLiteral => exact canonical_string_id lines e hty h
  | identifier =>
    unfold reconstructStep
    rw [hty]

theorem foldl_canonical_id (lines : List PyStr) (L : List (CodeElement × PyStr))
    (h : ∀ p ∈ L, p.2 = p.1.text ∧ canonicalElem lines p.1 = true) :
    L.foldl (fun ls p => reconstructStep ls p.1 p.2) lines = lines := by
  induction L with
  | nil => rfl
  | cons p L ih =>
    have hp := h p (List.mem_cons_self _ _)
    rw [List.foldl_cons, hp.1, reconstructStep_canonical_id _ _ hp.2]
    exact ih (fun q hq => h q (List.mem_cons_of_mem _ hq))

/-- C1 (amended): if the translation supplied for every element equals that
element's own text AND every element's source occurrence is already in the
reconstructor's normal form (`canonicalElem`: one space after the comment
marker and nothing after the text; docstring lines exactly as re-emitted;
string-literal quotes at `start_col`/`end_col - 1` around exactly the text),
then the reconstructor's output is byte-identical to the original content.
Without the normal-form condition the claim is false (`c1_counterexample`). -/
theorem c1_identity_translation_amended (content : PyStr)
    (pairs : List (CodeElement × PyStr))
    (h : ∀ p ∈ pairs, p.2 = p.1.text ∧ canonicalElem (splitNL content) p.1 = true) :
    reconstruct_file content pairs = content := by
  unfold reconstruct_file reconstructLines
  rw [foldl_canonical_id _ _ (fun p hp => h p (mem_sortDesc.mp hp))]
  exact joinNL_splitNL content

/-- C1 counterexample: on `#你好` (no space after the marker) extraction
returns one comment element, and reconstruction under the identity translation
yields `# 你好`, which differs from the original content. -/
theorem c1_counterexample :
    extract_comments_and_docstrings c1Content Lang.python = Except.ok [c1Elem] ∧
    reconstruct_file c1Content [(c1Elem, c1Elem.text)] ≠ c1Content ∧
    reconstruct_file c1Content [(c1Elem, c1Elem.text)] = pystr "# 你好" :=
  ⟨rfl, by decide, by decide⟩

theorem c1_witness :
    (∀ p ∈ c1WitnessPairs,
      p.2 = p.1.text ∧ canonicalElem (splitNL c1WitnessContent) p.1 = true) ∧
    reconstruct_file c1WitnessContent c1WitnessPairs = c1WitnessContent :=
  ⟨by decide, c1_identity_translation_amended _ _ (by decide)⟩

/-! ## C2: frame property of reconstruction (amended: one element per line) -/

theorem validPair_lt (lines : List PyStr) (p : CodeElement × PyStr)
    (h : validPair lines p = true) : p.1.start_line < lines.length := by
  unfold validPair at h
  cases hty : p.1.type <;> rw [hty] at h <;>
    simp only [Bool.and_eq_true, decide_eq_true_eq] at h
  · exact h.1
  · exact h.2
  · exact h.1.2
  · exact absurd h (by simp)

theorem validPair_congr (lines lines' : List PyStr) (p : CodeElement × PyStr)
    (hlen : lines'.length = lines.length)
    (hget : lines'.getD p.1.start_line [] = lines.getD p.1.start_line []) :
    validPair lines' p = validPair lines p := by
  unfold validPair
  cases p.1.type <;> simp only [hlen, hget]

theorem reconstructStep_valid_set (lines : List PyStr) (p : CodeElement × PyStr)
    (h : validPair lines p = true) :
    reconstructStep lines p.1 p.2 =
      lines.set p.1.start_line (expectedLine (lines.getD p.1.start_line []) p.1 p.2) := by
  cases hty : p.1.type with
  | comment =>
    unfold validPair at h
    rw [hty] at h
    simp only [Bool.and_eq_true, Bool.or_eq_true, decide_eq_true_eq] at h
    obtain ⟨hsl, hcs, hm⟩ := h
    unfold reconstructStep expectedLine
    rw [hty]
    by_cases hdq :
        pySlice (lines.getD p.1.start_line []) p.1.start_col (p.1.start_col + 2) = dblSlash
    · simp only [if_pos hsl, if_pos hcs, if_pos hdq]
    · have hh : (lines.getD p.1.start_line []).getD p.1.start_col ' ' = '#' := by
        rcases hm with hm | hm
        · exact absurd hm hdq
        · exact hm
      simp only [if_pos hsl, if_pos hcs, if_neg hdq, if_pos hh]
  | docstring =>
    unfold validPair at h
    rw [hty] at h
    simp only [Bool.and_eq_true, decide_eq_true_eq] at h
    obtain ⟨heq, hsl⟩ := h
    unfold reconstructStep expectedLine
    rw [hty]
    simp only [if_pos hsl, if_pos heq]
  | stringLiteral =>
    unfold validPair at h
    rw [hty] at h
    simp only [Bool.and_eq_true, decide_eq_true_eq] at h
    obtain ⟨⟨heq, hsl⟩, hcs⟩ := h
    unfold reconstructStep expectedLine
    rw [hty]
    simp only [if_pos hsl, if_pos hcs]
  | identifier =>
    unfold validPair at h
    rw [hty] at h
    simp at h

theorem frame_fold (L : List (CodeElement × PyStr)) (lines : List PyStr)
    (hv : ∀ p ∈ L, validPair lines p = true)
    (hnd : (L.map (fun p => p.1.start_line)).Nodup) :
    (L.foldl (fun ls p => reconstructStep ls p.1 p.2) lines).length = lines.length ∧
    (∀ j, j ∉ L.map (fun p => p.1.start_line) →
      (L.foldl (fun ls p => reconstructStep ls p.1 p.2) lines).getD j [] =
        lines.getD j []) ∧
    (∀ p ∈ L, (L.foldl (fun ls p => reconstructStep ls p.1 p.2) lines).getD
        p.1.start_line [] =
      expectedLine (lines.getD p.1.start_line []) p.1 p.2) := by
  induction L generalizing lines with
  | nil =>
    exact ⟨rfl, fun j _ => rfl, fun p hp => absurd hp (List.not_mem_nil p)⟩
  | cons p L ih =>
    have hvp := hv p (List.mem_cons_self _ _)
    have hsl := validPair_lt lines p hvp
    rw [List.map_cons, List.nodup_cons] at hnd
    obtain ⟨hpnot, hndL⟩ := hnd
    have hstep : reconstructStep lines p.1 p.2 =
        lines.set p.1.start_line (expectedLine (lines.getD p.1.start_line []) p.1 p.2) :=
      reconstructStep_valid_set lines p hvp
    have hlen' : (reconstructStep lines p.1 p.2).length = lines.length := by
      rw [hstep, List.length_set]
    have hne : ∀ q ∈ L, q.1.start_line ≠ p.1.start_line := by
      intro q hq hqe
      exact hpnot (hqe ▸ List.mem_map.mpr ⟨q, hq, rfl⟩)
    have hget' : ∀ q ∈ L, (reconstructStep lines p.1 p.2).getD q.1.start_line [] =
        lines.getD q.1.start_line [] := by
      intro q hq
      rw [hstep]
      exact getD_set_ne lines (fun hh => hne q hq hh.symm) _ _
    have hv' : ∀ q ∈ L, validPair (reconstructStep lines p.1 p.2) q = true := by
      intro q hq
      rw [validPair_congr lines (reconstructStep lines p.1 p.2) q hlen' (hget' q hq)]
      exact hv q (List.mem_cons_of_mem _ hq)
    obtain ⟨ih1, ih2, ih3⟩ := ih (reconstructStep lines p.1 p.2) hv' hndL
    rw [List.foldl_cons]
    refine ⟨ih1.trans hlen', ?_, ?_⟩
    · intro j hj
      rw [List.map_cons, List.mem_cons] at hj
      push_neg at hj
      rw [ih2 j hj.2, hstep]
      exact getD_set_ne lines (fun hh => hj.1 hh.symm) _ _
    · intro q hq
      rcases List.mem_cons.mp hq with hq | hq
      · subst hq
        rw [ih2 _ hpnot, hstep]
        exact getD_set_self lines hsl _ _
      · rw [ih3 q hq, hget' q hq]

/-- C2 (amended): for pairs whose elements are single-line (comments, string
literals and single-line docstrings; a multi-line docstring replaces its whole
line range) and lie on pairwise distinct lines, reconstruction preserves the
line count, leaves every line not named by an element byte-identical, and on a
touched line leaves everything outside the replaced span byte-identical to the
ORIGINAL line: for comments the prefix up to and including the marker, for
string literals the prefix before `start_col` and the suffix from `end_col`,
for docstrings the indentation.  With two elements on one line the claim is
false (`c2_counterexample`). -/
theorem c2_frame_amended (content : PyStr) (pairs : List (CodeElement × PyStr))
    (hv : ∀ p ∈ pairs, validPair (splitNL content) p = true)
    (hnd : (pairs.map (fun p => p.1.start_line)).Nodup) :
    (reconstructLines content pairs).length = (splitNL content).length ∧
    (∀ j, j ∉ pairs.map (fun p => p.1.start_line) →
      (reconstructLines content pairs).getD j [] = (splitNL content).getD j []) ∧
    (∀ p ∈ pairs, (reconstructLines content pairs).getD p.1.start_line [] =
      expectedLine ((splitNL content).getD p.1.start_line []) p.1 p.2) := by
  have hperm := sortDesc_perm pairs
  have hndm : ((sortDesc pairs).map (fun p => p.1.start_line)).Nodup :=
    ((hperm.map _).nodup_iff).mpr hnd
  obtain ⟨h1, h2, h3⟩ := frame_fold (sortDesc pairs) (splitNL content)
    (fun p hp => hv p (mem_sortDesc.mp hp)) hndm
  unfold reconstructLines
  refine ⟨h1, ?_, ?_⟩
  · intro j hj
    apply h2
    intro hmem
    apply hj
    obtain ⟨q, hq, hqe⟩ := List.mem_map.mp hmem
    exact List.mem_map.mpr ⟨q, mem_sortDesc.mp hq, hqe⟩
  · intro p hp
    exact h3 p (mem_sortDesc.mpr hp)

/-- C2 counterexample: the two extracted string literals of
`a = "你" ; b = "好"` share line 0; after replacing the first with `hello`,
the second splice reuses the original columns on the already-shifted line, so
the untouched text ` = ` between the two spans is destroyed — the output is
`a = "hello" ; bworldb "好"` instead of the frame-respecting
`a = "hello" ; b = "world"`. -/
theorem c2_counterexample :
    extract_all_translatable c2Content Lang.python = Except.ok [c2Elem1, c2Elem2] ∧
    reconstruct_file c2Content [(c2Elem1, pystr "hello"), (c2Elem2, pystr "world")] =
      pystr "a = \"hello\" ; bworldb \"好\"" ∧
    reconstruct_file c2Content [(c2Elem1, pystr "hello"), (c2Elem2, pystr "world")] ≠
      pystr "a = \"hello\" ; b = \"world\"" :=
  ⟨rfl, by decide, by decide⟩

theorem c2_witness :
    (∀ p ∈ c2WitnessPairs, validPair (splitNL c2WitnessContent) p = true) ∧
    (c2WitnessPairs.map (fun p => p.1.start_line)).Nodup ∧
    ((reconstructLines c2WitnessContent c2WitnessPairs).length =
        (splitNL c2WitnessContent).length ∧
     (∀ j, j ∉ c2WitnessPairs.map (fun p => p.1.start_line) →
       (reconstructLines c2WitnessContent c2WitnessPairs).getD j [] =
         (splitNL c2WitnessContent).getD j []) ∧
     (∀ p ∈ c2WitnessPairs,
       (reconstructLines c2WitnessContent c2WitnessPairs).getD p.1.start_line [] =
         expectedLine ((splitNL c2WitnessContent).getD p.1.start_line []) p.1 p.2)) :=
  ⟨by decide, by decide, c2_frame_amended _ _ (by decide) (by decide)⟩

/-! ## Structural lemmas about the scanners -/

theorem scanBody_eq_aux (b : StrBranch) :
    ∀ (n : Nat) (s : PyStr), s.length ≤ n → ∀ body rem,
      scanBody b s = some (body, rem) → s = body ++ b.quote :: rem := by
  intro n
  induction n with
  | zero =>
    intro s hs body rem h
    have hnil : s = [] := List.eq_nil_of_length_eq_zero (Nat.le_zero.mp hs)
    subst hnil
    simp [scanBody] at h
  | succ n ih =>
    intro s hs body rem h
    cases s with
    | nil => simp [scanBody] at h
    | cons c rest =>
      unfold scanBody at h
      by_cases hc : c = b.quote
      · rw [if_pos hc] at h
        obtain ⟨hb, hr⟩ := Prod.mk.injEq .. ▸ Option.some.inj h
        subst hb
        rw [hc, hr]
        rfl
      · rw [if_neg hc] at h
        by_cases hesc : b.escapes = true ∧ c = '\\'
        · rw [if_pos hesc] at h
          cases rest with
          | nil => simp at h
          | cons c2 rest2 =>
            dsimp only at h
            by_cases h2 : c2 = '\n'
            · rw [if_pos h2] at h; simp at h
            · rw [if_neg h2] at h
              cases hsc : scanBody b rest2 with
              | none => rw [hsc] at h; simp at h
              | some pr =>
                obtain ⟨body2, rem2⟩ := pr
                rw [hsc] at h
                obtain ⟨hb, hr⟩ := Prod.mk.injEq .. ▸ Option.some.inj h
                have hrec := ih rest2 (by simp at hs; omega) body2 rem2 hsc
                subst hr
                rw [← hb, hrec]
                simp
        · rw [if_neg hesc] at h
          by_cases hnl : (¬ b.allowNL = true) ∧ c = '\n'
          · rw [if_pos hnl] at h; simp at h
          · rw [if_neg hnl] at h
            cases hsc : scanBody b rest with
            | none => rw [hsc] at h; simp at h
            | some pr =>
              obtain ⟨body2, rem2⟩ := pr
              rw [hsc] at h
              obtain ⟨hb, hr⟩ := Prod.mk.injEq .. ▸ Option.some.inj h
              have hrec := ih rest (by simp at hs; omega) body2 rem2 hsc
              subst hr
              rw [← hb, hrec]
              simp

theorem scanBody_eq {b : StrBranch} {s body rem : PyStr}
    (h : scanBody b s = some (body, rem)) : s = body ++ b.quote :: rem :=
  scanBody_eq_aux b s.length s (Nat.le_refl _) body rem h

theorem take_append_length {α : Type} (l l2 : List α) (n : Nat) :
    (l ++ l2).take (l.length + n) = l ++ l2.take n := by
  induction l with
  | nil => simp
  | cons a l ih => simp [List.take_cons, Nat.succ_add, ih]

theorem drop_append_length {α : Type} (l l2 : List α) (n : Nat) :
    (l ++ l2).drop (l.length + n) = l2.drop n := by
  induction l with
  | nil => simp
  | cons a l ih => simp [Nat.succ_add, ih]

/-- Invariant of the string-literal scanner: every reported match delimits a
slice of the content that is the branch quote, the inner text, and the quote
again; positions stay inside the content. -/
theorem strScan_spec (branches : List StrBranch) :
    ∀ (fuel pos : Nat) (s : PyStr) (content : PyStr),
      content.drop pos = s → pos ≤ content.length →
      ∀ m ∈ strScan branches fuel pos s,
        ∃ br ∈ branches,
          m.2.1 = m.1 + m.2.2.length + 2 ∧ m.2.1 ≤ content.length ∧
          content.take m.2.1 =
            content.take m.1 ++ br.quote :: (m.2.2 ++ [br.quote]) := by
  intro fuel
  induction fuel with
  | zero =>
    intro pos s content _ _ m hm
    simp [strScan] at hm
  | succ fuel ih =>
    intro pos s content hs hpos m hm
    cases s with
    | nil => simp [strScan] at hm
    | cons c rest =>
      have hlen : content.length = pos + (c :: rest).length := by
        rw [← hs, List.length_drop]
        omega
      have hdrop1 : content.drop (pos + 1) = rest := by
        have h1 := List.drop_drop 1 pos content
        rw [hs] at h1
        simpa using h1.symm
      unfold strScan at hm
      dsimp only at hm
      cases hbf : branchFor branches c with
      | none =>
        rw [hbf] at hm
        dsimp only at hm
        exact ih (pos + 1) rest content hdrop1 (by simp at hlen; omega) m hm
      | some b =>
        rw [hbf] at hm
        dsimp only at hm
        have hbmem : b ∈ branches := List.mem_of_find?_eq_some hbf
        have hbq : b.quote = c := by
          have hpred := List.find?_some hbf
          simpa using hpred
        cases hsb : scanBody b rest with
        | none =>
          rw [hsb] at hm
          dsimp only at hm
          exact ih (pos + 1) rest content hdrop1 (by simp at hlen; omega) m hm
        | some pr =>
          obtain ⟨body, rem⟩ := pr
          rw [hsb] at hm
          dsimp only at hm
          have hre : rest = body ++ b.quote :: rem := scanBody_eq hsb
          have hslice : content.take (pos + body.length + 2) =
              content.take pos ++ b.quote :: (body ++ [b.quote]) := by
            rw [show pos + body.length + 2 = pos + (body.length + 2) from by omega,
              List.take_add, hs]
            congr 1
            rw [hre]
            rw [show body.length + 2 = body.length + 1 + 1 from rfl, List.take_succ_cons]
            rw [take_append_length body (b.quote :: rem) 1]
            rw [hbq]
            rfl
          have hble : pos + body.length + 2 ≤ content.length := by
            have hrl : (c :: rest).length = body.length + 2 + rem.length := by
              rw [hre]; simp; omega
            omega
          rcases List.mem_cons.mp hm with hm | hm
          · subst hm
            exact ⟨b, hbmem, rfl, hble, hslice⟩
          · have hrem : content.drop (pos + body.length + 2) = rem := by
              have h1 := List.drop_drop (body.length + 2) pos content
              rw [hs, hre] at h1
              have h2 : List.drop (body.length + 1 + 1) (c :: (body ++ b.quote :: rem)) =
                  rem := by
                rw [List.drop_succ_cons]
                have hda := drop_append_length body (b.quote :: rem) 1
                simp at hda
                simp [hda]
              rw [show body.length + 2 = body.length + 1 + 1 from rfl, h2] at h1
              rw [show pos + body.length + 2 = pos + (body.length + 1 + 1) from by omega]
              exact h1.symm
            exact ih (pos + body.length + 2) rem content hrem hble m hm

/-! ## Line-number and line-start arithmetic -/

theorem lineNum_zero (s : PyStr) : lineNum s 0 = 0 := rfl

theorem lineNum_cons_nl (s : PyStr) (p : Nat) :
    lineNum ('\n' :: s) (p + 1) = lineNum s p + 1 := by
  simp [lineNum, List.take_succ_cons, List.count_cons]

theorem lineNum_cons_other {c : Char} (hc : c ≠ '\n') (s : PyStr) (p : Nat) :
    lineNum (c :: s) (p + 1) = lineNum s p := by
  simp [lineNum, List.take_succ_cons, List.count_cons, hc]

theorem lineStartPos_zero (s : PyStr) : lineStartPos s 0 = 0 := rfl

theorem lineStartPos_cons_nl (s : PyStr) (k : Nat) :
    lineStartPos ('\n' :: s) (k + 1) = 1 + lineStartPos s k := by
  simp [lineStartPos, splitNL_cons_nl, List.take_succ_cons]

theorem lineStartPos_cons_other {c : Char} (hc : c ≠ '\n') (s : PyStr) (k : Nat) :
    lineStartPos (c :: s) (k + 1) = lineStartPos s (k + 1) + 1 := by
  cases h : splitNL s with
  | nil => exact absurd h (splitNL_ne_nil s)
  | cons l ls =>
    simp [lineStartPos, splitNL_cons_other hc s h, h, List.take_succ_cons]
    omega

/-- The start of the line containing `pos` is at or before `pos`. -/
theorem lineStartPos_lineNum_le (s : PyStr) : ∀ pos : Nat,
    lineStartPos s (lineNum s pos) ≤ pos := by
  induction s with
  | nil =>
    intro pos
    have h0 : lineNum [] pos = 0 := by simp [lineNum]
    rw [h0, lineStartPos_zero]
    omega
  | cons c s ih =>
    intro pos
    cases pos with
    | zero => rw [lineNum_zero, lineStartPos_zero]
    | succ p =>
      by_cases hc : c = '\n'
      · subst hc
        rw [lineNum_cons_nl, lineStartPos_cons_nl]
        have := ih p
        omega
      · rw [lineNum_cons_other hc]
        cases hk : lineNum s p with
        | zero => rw [lineStartPos_zero]; omega
        | succ k =>
          rw [lineStartPos_cons_other hc]
          have := ih p
          rw [hk] at this
          omega

/-- A position inside the content sits before the start of the next line. -/
theorem le_lineStartPos_succ (s : PyStr) : ∀ pos : Nat, pos ≤ s.length →
    pos ≤ lineStartPos s (lineNum s pos + 1) := by
  induction s with
  | nil =>
    intro pos hp
    have h0 : pos = 0 := by simpa using hp
    subst h0
    exact Nat.zero_le _
  | cons c s ih =>
    intro pos hp
    cases pos with
    | zero => exact Nat.zero_le _
    | succ p =>
      have hp' : p ≤ s.length := by simp at hp; omega
      by_cases hc : c = '\n'
      · subst hc
        rw [lineNum_cons_nl, lineStartPos_cons_nl]
        have := ih p hp'
        omega
      · rw [lineNum_cons_other hc, lineStartPos_cons_other hc]
        have := ih p hp'
        omega

/-- Positions whose intervening slice has no newline are on the same line. -/
theorem lineNum_eq_of_slice_nl_free {content : PyStr} {a b : Nat} {mid : PyStr}
    (h : content.take b = content.take a ++ mid) (hnl : '\n' ∉ mid) :
    lineNum content b = lineNum content a := by
  unfold lineNum
  rw [h, List.count_append, List.count_eq_zero.mpr hnl]
  omega

/-! ## Provenance of extracted elements -/

theorem lineElements_mem {content marker : PyStr} {e : CodeElement}
    (h : e ∈ lineElements content marker) :
    e.type = ElementType.comment ∧
    contains_non_ascii e.text = true ∧
    ∃ m ∈ lineCommentMatches marker content, e.text = pyStrip m.2.2 := by
  unfold lineElements at h
  obtain ⟨m, hm, he⟩ := List.mem_filterMap.mp h
  dsimp only at he
  split at he
  · rename_i hfor
    obtain rfl := Option.some.inj he
    exact ⟨rfl, hfor, m, hm, rfl⟩
  · exact absurd he (by simp)

theorem secondElemsOfMatches_mem {content : PyStr} {p : SecondPat}
    {ms : List (Nat × Nat × Option PyStr × Option PyStr)} {es : List CodeElement}
    (h : secondElemsOfMatches content p ms = Except.ok es) :
    ∀ e ∈ es,
      e.type = (if p.isDoc then ElementType.docstring else ElementType.comment) ∧
      contains_non_ascii e.text = true ∧
      ∃ m ∈ ms, ∃ t, groupText p.twoGroups m.2.2.1 m.2.2.2 = Except.ok t ∧
        e.text = pyStrip t := by
  induction ms generalizing es with
  | nil =>
    unfold secondElemsOfMatches at h
    obtain rfl := Except.ok.inj h
    intro e he
    simp at he
  | cons m ms ih =>
    obtain ⟨a, b, g1, g2⟩ := m
    unfold secondElemsOfMatches at h
    cases hg : groupText p.twoGroups g1 g2 with
    | error err => rw [hg] at h; simp [Bind.bind, Except.bind] at h
    | ok t =>
      rw [hg] at h
      cases ht : secondElemsOfMatches content p ms with
      | error err => rw [ht] at h; simp [Bind.bind, Except.bind] at h
      | ok tail =>
        rw [ht] at h
        simp only [Bind.bind, Except.bind] at h
        split at h
        · rename_i hfor
          obtain rfl := Except.ok.inj h
          intro e he
          rcases List.mem_cons.mp he with rfl | he
          · exact ⟨rfl, hfor, (a, b, g1, g2), List.mem_cons_self _ _, t, hg, rfl⟩
          · obtain ⟨hty, hf2, m2, hm2, t2, hg2, htxt⟩ := ih ht e he
            exact ⟨hty, hf2, m2, List.mem_cons_of_mem _ hm2, t2, hg2, htxt⟩
        · obtain rfl := Except.ok.inj h
          intro e he
          obtain ⟨hty, hf2, m2, hm2, t2, hg2, htxt⟩ := ih ht e he
          exact ⟨hty, hf2, m2, List.mem_cons_of_mem _ hm2, t2, hg2, htxt⟩

theorem secondElems_mem {content : PyStr} {pats : List SecondPat} {es : List CodeElement}
    (h : secondElems content pats = Except.ok es) :
    ∀ e ∈ es, ∃ p ∈ pats,
      e.type = (if p.isDoc then ElementType.docstring else ElementType.comment) ∧
      contains_non_ascii e.text = true ∧
      ∃ m ∈ secondMatches content p,
        ∃ t, groupText p.twoGroups m.2.2.1 m.2.2.2 = Except.ok t ∧ e.text = pyStrip t := by
  induction pats generalizing es with
  | nil =>
    unfold secondElems at h
    obtain rfl := Except.ok.inj h
    intro e he
    simp at he
  | cons p pats ih =>
    unfold secondElems at h
    cases h1 : secondElemsOfMatches content p (secondMatches content p) with
    | error err => rw [h1] at h; simp [Bind.bind, Except.bind] at h
    | ok es1 =>
      rw [h1] at h
      cases h2 : secondElems content pats with
      | error err => rw [h2] at h; simp [Bind.bind, Except.bind] at h
      | ok es2 =>
        rw [h2] at h
        simp only [Bind.bind, Except.bind] at h
        obtain rfl := Except.ok.inj h
        intro e he
        rcases List.mem_append.mp he with he | he
        · obtain ⟨hty, hf2, m2, hm2, t2, hg2, htxt⟩ := secondElemsOfMatches_mem h1 e he
          exact ⟨p, List.mem_cons_self _ _, hty, hf2, m2, hm2, t2, hg2, htxt⟩
        · obtain ⟨p2, hp2, rest⟩ := ih h2 e he
          exact ⟨p2, List.mem_cons_of_mem _ hp2, rest⟩

theorem extract_ccd_inv {content : PyStr} {lang : Lang} {es : List CodeElement}
    (h : extract_comments_and_docstrings content lang = Except.ok es) :
    ∃ rest, secondElems content (secondPats (PATTERNS lang)) = Except.ok rest ∧
      es = (match (PATTERNS lang).lineComment with
            | some m => lineElements content m
            | none => []) ++ rest := by
  simp only [extract_comments_and_docstrings] at h
  cases hs : secondElems content (secondPats (PATTERNS lang)) with
  | error err => rw [hs] at h; simp [Bind.bind, Except.bind] at h
  | ok rest =>
    rw [hs] at h
    simp only [Bind.bind, Except.bind] at h
    exact ⟨rest, rfl, (Except.ok.inj h).symm⟩

/-- Every element of the conservative pass is a comment or a docstring. -/
theorem extract_ccd_types {content : PyStr} {lang : Lang} {es : List CodeElement}
    (h : extract_comments_and_docstrings content lang = Except.ok es) :
    ∀ e ∈ es, e.type = ElementType.comment ∨ e.type = ElementType.docstring := by
  obtain ⟨rest, hrest, rfl⟩ := extract_ccd_inv h
  intro e he
  rcases List.mem_append.mp he with he | he
  · cases hlc : (PATTERNS lang).lineComment with
    | none => rw [hlc] at he; simp at he
    | some m =>
      rw [hlc] at he
      exact Or.inl (lineElements_mem he).1
  · obtain ⟨p, _, hty, _⟩ := secondElems_mem hrest e he
    by_cases hd : p.isDoc = true
    · rw [hty, if_pos hd]; exact Or.inr rfl
    · rw [hty, if_neg hd]; exact Or.inl rfl

theorem extract_all_inv {content : PyStr} {lang : Lang} {es : List CodeElement}
    (h : extract_all_translatable content lang = Except.ok es) :
    ∃ elements, extract_comments_and_docstrings content lang = Except.ok elements ∧
      es = elements ++ stringElems content lang elements := by
  simp only [extract_all_translatable] at h
  cases hs : extract_comments_and_docstrings content lang with
  | error err => rw [hs] at h; simp [Bind.bind, Except.bind] at h
  | ok elements =>
    rw [hs] at h
    simp only [Bind.bind, Except.bind] at h
    exact ⟨elements, rfl, (Except.ok.inj h).symm⟩

theorem stringElems_mem {content : PyStr} {lang : Lang} {elements : List CodeElement}
    {e : CodeElement} (h : e ∈ stringElems content lang elements) :
    ∃ m ∈ stringMatches (PATTERNS lang).stringBranches content,
      (coveredRanges content elements).any
        (fun r => decide (r.1 ≤ m.1) && decide (m.2.1 ≤ r.2)) = false ∧
      contains_non_ascii m.2.2 = true ∧
      e = { type := ElementType.stringLiteral, text := m.2.2,
            start_line := lineNum content m.1, end_line := lineNum content m.1,
            start_col := colOf content m.1, end_col := colOf content m.2.1,
            original_text := (splitNL content).getD (lineNum content m.1) [] } := by
  unfold stringElems at h
  obtain ⟨m, hm, he⟩ := List.mem_filterMap.mp h
  dsimp only at he
  split at he
  · exact absurd he (by simp)
  · rename_i hcov
    split at he
    · rename_i hfor
      obtain rfl := Option.some.inj he
      exact ⟨m, hm, by simpa using hcov, hfor, rfl⟩
    · exact absurd he (by simp)

/-! ## C5: aggressive-mode non-overlap (amended: single-line matches) -/

theorem patterns_quote_ne_nl (lang : Lang) :
    ∀ br ∈ (PATTERNS lang).stringBranches, br.quote ≠ '\n' := by
  cases lang <;> decide

/-- C5 (amended): in aggressive mode every accepted StringLiteral element's
inner text passes the script predicate, and — provided its match lies within a
single line (its inner text contains no newline; always true for Python, whose
string pattern cannot cross a line) — its recorded line range coincides with
no Comment/Docstring element's line range from the same pass.  For languages
whose string pattern admits newlines the claim is false (`c5_counterexample`):
a multi-line match is recorded with `start_line = end_line` and escapes the
byte-range cover test. -/
theorem c5_string_nonoverlap_amended (content : PyStr) (lang : Lang)
    (es : List CodeElement) (h : extract_all_translatable content lang = Except.ok es)
    (e1 : CodeElement) (h1 : e1 ∈ es) (hty1 : e1.type = ElementType.stringLiteral) :
    contains_non_ascii e1.text = true ∧
    ('\n' ∉ e1.text →
      ∀ e2 ∈ es, (e2.type = ElementType.comment ∨ e2.type = ElementType.docstring) →
        ¬(e1.start_line = e2.start_line ∧ e1.end_line = e2.end_line)) := by
  obtain ⟨elements, hccd, rfl⟩ := extract_all_inv h
  have htypes := extract_ccd_types hccd
  have he1s : e1 ∈ stringElems content lang elements := by
    rcases List.mem_append.mp h1 with hmem | hmem
    · rcases htypes e1 hmem with hc | hc <;> rw [hty1] at hc <;> exact absurd hc (by decide)
    · exact hmem
  obtain ⟨m, hm, hcov, hfor, rfl⟩ := stringElems_mem he1s
  refine ⟨hfor, ?_⟩
  intro hnl e2 h2 hty2 hco
  have he2 : e2 ∈ elements := by
    rcases List.mem_append.mp h2 with hmem | hmem
    · exact hmem
    · obtain ⟨m2, _, _, _, rfl⟩ := stringElems_mem hmem
      rcases hty2 with hc | hc <;> simp at hc
  have hpair : (lineStartPos content e2.start_line,
      lineStartPos content (e2.end_line + 1)) ∈ coveredRanges content elements :=
    List.mem_map.mpr ⟨e2, he2, rfl⟩
  obtain ⟨hcs, hce⟩ := hco
  dsimp only at hcs hce hnl
  have hnot : ¬(lineStartPos content e2.start_line ≤ m.1 ∧
      m.2.1 ≤ lineStartPos content (e2.end_line + 1)) := by
    intro hcontra
    have hgood : ((fun r => decide (r.1 ≤ m.1) && decide (m.2.1 ≤ r.2))
        (lineStartPos content e2.start_line, lineStartPos content (e2.end_line + 1)))
        = true := by
      simp [hcontra.1, hcontra.2]
    have hany : (coveredRanges content elements).any
        (fun r => decide (r.1 ≤ m.1) && decide (m.2.1 ≤ r.2)) = true :=
      List.any_eq_true.mpr ⟨_, hpair, hgood⟩
    rw [hcov] at hany
    exact Bool.false_ne_true hany
  unfold stringMatches at hm
  obtain ⟨br, hbr, hb_eq, hble, hslice⟩ :=
    strScan_spec (PATTERNS lang).stringBranches content.length 0 content content
      (by simp) (Nat.zero_le _) m hm
  have hS : lineStartPos content e2.start_line ≤ m.1 := by
    rw [← hcs]
    exact lineStartPos_lineNum_le content m.1
  have hnlslice : '\n' ∉ (br.quote :: (m.2.2 ++ [br.quote])) := by
    intro hin
    rcases List.mem_cons.mp hin with hq | hin2
    · exact patterns_quote_ne_nl lang br hbr hq.symm
    · rcases List.mem_append.mp hin2 with hi | hq
      · exact hnl hi
      · simp at hq
        exact patterns_quote_ne_nl lang br hbr hq.symm
  have hlNum : lineNum content m.2.1 = lineNum content m.1 :=
    lineNum_eq_of_slice_nl_free hslice hnlslice
  have hE : m.2.1 ≤ lineStartPos content (e2.end_line + 1) := by
    have hstep := le_lineStartPos_succ content m.2.1 hble
    rw [hlNum, hce] at hstep
    exact hstep
  exact hnot ⟨hS, hE⟩

/-- C5 counterexample: in JavaScript content `//你 "好\nb"` the line comment
covers line 0, yet the string match `"好\nb"` starts on line 0 and ends on
line 1, so its byte range is not inside the comment's full-line range; it is
accepted, recorded with `start_line = end_line = 0`, and its line range
coincides with the comment element's. -/
theorem c5_counterexample :
    extract_all_translatable c5Content Lang.javascript =
        Except.ok [c5CommentElem, c5StringElem] ∧
    c5StringElem.type = ElementType.stringLiteral ∧
    c5CommentElem.type = ElementType.comment ∧
    c5StringElem.start_line = c5CommentElem.start_line ∧
    c5StringElem.end_line = c5CommentElem.end_line :=
  ⟨rfl, rfl, rfl, rfl, rfl⟩

theorem c5_witness :
    extract_all_translatable (pystr "# 你\ny = \"好\"") Lang.python =
      Except.ok [⟨ElementType.comment, pystr "你", 0, 0, 0, 3, pystr "# 你"⟩,
                 ⟨ElementType.stringLiteral, pystr "好", 1, 1, 4, 7, pystr "y = \"好\""⟩] ∧
    (⟨ElementType.stringLiteral, pystr "好", 1, 1, 4, 7, pystr "y = \"好\""⟩ :
        CodeElement) ∈
      [⟨ElementType.comment, pystr "你", 0, 0, 0, 3, pystr "# 你"⟩,
       (⟨ElementType.stringLiteral, pystr "好", 1, 1, 4, 7, pystr "y = \"好\""⟩ :
        CodeElement)] ∧
    (contains_non_ascii (pystr "好") = true ∧
     ('\n' ∉ pystr "好" →
      ∀ e2 ∈ [⟨ElementType.comment, pystr "你", 0, 0, 0, 3, pystr "# 你"⟩,
              (⟨ElementType.stringLiteral, pystr "好", 1, 1, 4, 7,
                pystr "y = \"好\""⟩ : CodeElement)],
        (e2.type = ElementType.comment ∨ e2.type = ElementType.docstring) →
          ¬((1 : Nat) = e2.start_line ∧ (1 : Nat) = e2.end_line))) :=
  ⟨rfl, by decide,
   c5_string_nonoverlap_amended (pystr "# 你\ny = \"好\"") Lang.python
     [⟨ElementType.comment, pystr "你", 0, 0, 0, 3, pystr "# 你"⟩,
      ⟨ElementType.stringLiteral, pystr "好", 1, 1, 4, 7, pystr "y = \"好\""⟩]
     rfl
     ⟨ElementType.stringLiteral, pystr "好", 1, 1, 4, 7, pystr "y = \"好\""⟩
     (by decide) rfl⟩

/-! ## Characters of extracted text come from the content -/

theorem pairScan_succ (openTok closeTok : PyStr) (fuel pos : Nat) (s : PyStr) :
    pairScan openTok closeTok (fuel + 1) pos s =
      (if openTok.isPrefixOf s then
        match pyFindStr (s.drop openTok.length) closeTok with
        | some k =>
          (pos, pos + openTok.length + k + closeTok.length, (s.drop openTok.length).take k)
            :: pairScan openTok closeTok fuel (pos + openTok.length + k + closeTok.length)
                 ((s.drop openTok.length).drop (k + closeTok.length))
        | none =>
          match s with
          | [] => []
          | _ :: rest => pairScan openTok closeTok fuel (pos + 1) rest
      else
        match s with
        | [] => []
        | _ :: rest => pairScan openTok closeTok fuel (pos + 1) rest) := rfl

theorem dsScan_succ (fuel pos : Nat) (s : PyStr) :
    dsScan (fuel + 1) pos s =
      (if tripleD.isPrefixOf s then
        match pyFindStr (s.drop 3) tripleD with
        | some k =>
          (pos, pos + k + 6, some ((s.drop 3).take k), none)
            :: dsScan fuel (pos + k + 6) ((s.drop 3).drop (k + 3))
        | none =>
          match s with
          | [] => []
          | _ :: rest => dsScan fuel (pos + 1) rest
      else if tripleS.isPrefixOf s then
        match pyFindStr (s.drop 3) tripleS with
        | some k =>
          (pos, pos + k + 6, none, some ((s.drop 3).take k))
            :: dsScan fuel (pos + k + 6) ((s.drop 3).drop (k + 3))
        | none =>
          match s with
          | [] => []
          | _ :: rest => dsScan fuel (pos + 1) rest
      else
        match s with
        | [] => []
        | _ :: rest => dsScan fuel (pos + 1) rest) := rfl

theorem lineScan_group_chars (marker : PyStr) : ∀ (off : Nat) (ls : List PyStr),
    ∀ m ∈ lineScan marker off ls, ∀ c ∈ m.2.2, ∃ l ∈ ls, c ∈ l := by
  intro off ls
  induction ls generalizing off with
  | nil => intro m hm; simp [lineScan] at hm
  | cons line rest ih =>
    intro m hm c hc
    unfold lineScan at hm
    rcases List.mem_append.mp hm with hm | hm
    · cases hf : pyFindStr line marker with
      | none => rw [hf] at hm; simp at hm
      | some i =>
        rw [hf] at hm
        simp only [List.mem_singleton] at hm
        subst hm
        exact ⟨line, List.mem_cons_self _ _, (List.drop_sublist _ _).mem hc⟩
    · obtain ⟨l, hl, hcl⟩ := ih (off + line.length + 1) m hm c hc
      exact ⟨l, List.mem_cons_of_mem _ hl, hcl⟩

theorem lineCommentMatches_group_chars {marker content : PyStr}
    {m : Nat × Nat × PyStr} (hm : m ∈ lineCommentMatches marker content)
    {c : Char} (hc : c ∈ m.2.2) : c ∈ content := by
  obtain ⟨l, hl, hcl⟩ := lineScan_group_chars marker 0 (splitNL content) m hm c hc
  exact mem_of_mem_splitNL hl hcl

theorem pairScan_inner_chars (openTok closeTok : PyStr) :
    ∀ (fuel pos : Nat) (s : PyStr),
      ∀ m ∈ pairScan openTok closeTok fuel pos s, ∀ c ∈ m.2.2, c ∈ s := by
  intro fuel
  induction fuel with
  | zero => intro pos s m hm; simp [pairScan] at hm
  | succ fuel ih =>
    intro pos s m hm c hc
    rw [pairScan_succ] at hm
    by_cases hp : openTok.isPrefixOf s
    · rw [if_pos hp] at hm
      cases hf : pyFindStr (s.drop openTok.length) closeTok with
      | some k =>
        rw [hf] at hm
        rcases List.mem_cons.mp hm with rfl | hm
        · exact (List.drop_sublist _ _).mem ((List.take_sublist _ _).mem hc)
        · have hcs := ih _ _ m hm c hc
          exact (List.drop_sublist _ _).mem ((List.drop_sublist _ _).mem hcs)
      | none =>
        rw [hf] at hm
        cases s with
        | nil => simp at hm
        | cons a rest =>
          dsimp only at hm
          exact List.mem_cons_of_mem _ (ih _ _ m hm c hc)
    · rw [if_neg hp] at hm
      cases s with
      | nil => simp at hm
      | cons a rest =>
        dsimp only at hm
        exact List.mem_cons_of_mem _ (ih _ _ m hm c hc)

theorem dsScan_group_chars :
    ∀ (fuel pos : Nat) (s : PyStr), ∀ m ∈ dsScan fuel pos s,
      (∀ t, m.2.2.1 = some t → ∀ c ∈ t, c ∈ s) ∧
      (∀ t, m.2.2.2 = some t → ∀ c ∈ t, c ∈ s) := by
  intro fuel
  induction fuel with
  | zero => intro pos s m hm; simp [dsScan] at hm
  | succ fuel ih =>
    intro pos s m hm
    rw [dsScan_succ] at hm
    by_cases hp : tripleD.isPrefixOf s
    · rw [if_pos hp] at hm
      cases hf : pyFindStr (s.drop 3) tripleD with
      | some k =>
        rw [hf] at hm
        rcases List.mem_cons.mp hm with rfl | hm
        · constructor
          · intro t ht c hc
            obtain rfl := Option.some.inj ht
            exact (List.drop_sublist _ _).mem ((List.take_sublist _ _).mem hc)
          · intro t ht; simp at ht
        · obtain ⟨ha, hb⟩ := ih _ _ m hm
          exact ⟨fun t ht c hc =>
              (List.drop_sublist _ _).mem ((List.drop_sublist _ _).mem (ha t ht c hc)),
            fun t ht c hc =>
              (List.drop_sublist _ _).mem ((List.drop_sublist _ _).mem (hb t ht c hc))⟩
      | none =>
        rw [hf] at hm
        cases s with
        | nil => simp at hm
        | cons a rest =>
          dsimp only at hm
          obtain ⟨ha, hb⟩ := ih _ _ m hm
          exact ⟨fun t ht c hc => List.mem_cons_of_mem _ (ha t ht c hc),
            fun t ht c hc => List.mem_cons_of_mem _ (hb t ht c hc)⟩
    · rw [if_neg hp] at hm
      by_cases hq : tripleS.isPrefixOf s
      · rw [if_pos hq] at hm
        cases hf : pyFindStr (s.drop 3) tripleS with
        | some k =>
          rw [hf] at hm
          rcases List.mem_cons.mp hm with rfl | hm
          · constructor
            · intro t ht; simp at ht
            · intro t ht c hc
              obtain rfl := Option.some.inj ht
              exact (List.drop_sublist _ _).mem ((List.take_sublist _ _).mem hc)
          · obtain ⟨ha, hb⟩ := ih _ _ m hm
            exact ⟨fun t ht c hc =>
                (List.drop_sublist _ _).mem ((List.drop_sublist _ _).mem (ha t ht c hc)),
              fun t ht c hc =>
                (List.drop_sublist _ _).mem ((List.drop_sublist _ _).mem (hb t ht c hc))⟩
        | none =>
          rw [hf] at hm
          cases s with
          | nil => simp at hm
          | cons a rest =>
            dsimp only at hm
            obtain ⟨ha, hb⟩ := ih _ _ m hm
            exact ⟨fun t ht c hc => List.mem_cons_of_mem _ (ha t ht c hc),
              fun t ht c hc => List.mem_cons_of_mem _ (hb t ht c hc)⟩
      · rw [if_neg hq] at hm
        cases s with
        | nil => simp at hm
        | cons a rest =>
          dsimp only at hm
          obtain ⟨ha, hb⟩ := ih _ _ m hm
          exact ⟨fun t ht c hc => List.mem_cons_of_mem _ (ha t ht c hc),
            fun t ht c hc => List.mem_cons_of_mem _ (hb t ht c hc)⟩

theorem groupText_ok_cases {tg : Bool} {g1 g2 : Option PyStr} {t : PyStr}
    (h : groupText tg g1 g2 = Except.ok t) :
    g1 = some t ∨ g2 = some t ∨ t = [] := by
  have hfb : ((if tg = true then Except.ok (g2.getD [])
      else (Except.error ParseErr.noSuchGroup : Except ParseErr PyStr)) = Except.ok t) →
      g2 = some t ∨ t = [] := by
    intro hh
    split at hh
    · cases g2 with
      | some v => exact Or.inl (congrArg some (by simpa using Except.ok.inj hh))
      | none => exact Or.inr (by simpa using (Except.ok.inj hh).symm)
    · exact absurd hh (by simp)
  unfold groupText at h
  cases g1 with
  | some u =>
    dsimp only at h
    by_cases hu : u ≠ []
    · rw [if_pos hu] at h
      exact Or.inl (congrArg some (Except.ok.inj h))
    · rw [if_neg hu] at h
      rcases hfb h with hc | hc
      · exact Or.inr (Or.inl hc)
      · exact Or.inr (Or.inr hc)
  | none =>
    dsimp only at h
    rcases hfb h with hc | hc
    · exact Or.inr (Or.inl hc)
    · exact Or.inr (Or.inr hc)

theorem secondMatches_group_chars {content : PyStr} {p : SecondPat}
    {m : Nat × Nat × Option PyStr × Option PyStr} (hm : m ∈ secondMatches content p) :
    (∀ t, m.2.2.1 = some t → ∀ c ∈ t, c ∈ content) ∧
    (∀ t, m.2.2.2 = some t → ∀ c ∈ t, c ∈ content) := by
  cases p with
  | blockComment =>
    unfold secondMatches at hm
    obtain ⟨m0, hm0, rfl⟩ := List.mem_map.mp hm
    constructor
    · intro t ht c hc
      obtain rfl := Option.some.inj ht
      exact pairScan_inner_chars _ _ _ _ _ m0 hm0 c hc
    · intro t ht; simp at ht
  | javadoc =>
    unfold secondMatches at hm
    obtain ⟨m0, hm0, rfl⟩ := List.mem_map.mp hm
    constructor
    · intro t ht c hc
      obtain rfl := Option.some.inj ht
      exact pairScan_inner_chars _ _ _ _ _ m0 hm0 c hc
    · intro t ht; simp at ht
  | docstring =>
    unfold secondMatches at hm
    exact dsScan_group_chars _ _ _ m hm
  | docComment marker =>
    unfold secondMatches at hm
    obtain ⟨m0, hm0, rfl⟩ := List.mem_map.mp hm
    constructor
    · intro t ht c hc
      obtain rfl := Option.some.inj ht
      exact lineCommentMatches_group_chars hm0 hc
    · intro t ht; simp at ht

/-- Every character of an extracted element's text occurs in the content. -/
theorem extract_ccd_text_chars {content : PyStr} {lang : Lang} {es : List CodeElement}
    (h : extract_comments_and_docstrings content lang = Except.ok es) :
    ∀ e ∈ es, ∀ c ∈ e.text, c ∈ content := by
  obtain ⟨rest, hrest, rfl⟩ := extract_ccd_inv h
  intro e he c hc
  rcases List.mem_append.mp he with he | he
  · cases hlc : (PATTERNS lang).lineComment with
    | none => rw [hlc] at he; simp at he
    | some marker =>
      rw [hlc] at he
      obtain ⟨_, _, m, hm, htxt⟩ := lineElements_mem he
      rw [htxt] at hc
      exact lineCommentMatches_group_chars hm (mem_of_mem_pyStrip hc)
  · obtain ⟨p, _, _, _, m, hm, t, hg, htxt⟩ := secondElems_mem hrest e he
    rw [htxt] at hc
    have hct := mem_of_mem_pyStrip hc
    obtain ⟨hg1, hg2⟩ := secondMatches_group_chars hm
    rcases groupText_ok_cases hg with hcase | hcase | hcase
    · exact hg1 t hcase c hct
    · exact hg2 t hcase c hct
    · rw [hcase] at hct; simp at hct

theorem stringElems_text_chars {content : PyStr} {lang : Lang}
    {elements : List CodeElement} {e : CodeElement}
    (h : e ∈ stringElems content lang elements) : ∀ c ∈ e.text, c ∈ content := by
  obtain ⟨m, hm, _, _, rfl⟩ := stringElems_mem h
  intro c hc
  unfold stringMatches at hm
  obtain ⟨br, _, _, _, hslice⟩ :=
    strScan_spec (PATTERNS lang).stringBranches content.length 0 content content
      (by simp) (Nat.zero_le _) m hm
  have hmem : c ∈ content.take m.2.1 := by
    rw [hslice]
    dsimp only at hc
    exact List.mem_append.mpr (Or.inr (List.mem_cons_of_mem _
      (List.mem_append.mpr (Or.inl hc))))
  exact (List.take_sublist _ _).mem hmem

/-- A file on which extraction finds an element does contain foreign text. -/
theorem extract_nonempty_foreign {content : PyStr} {lang : Lang} {ta : Bool}
    {es : List CodeElement} (h : extractFor ta content lang = Except.ok es)
    (hne : es ≠ []) : contains_non_ascii content = true := by
  obtain ⟨e, he⟩ := List.exists_mem_of_ne_nil es hne
  have hfor : contains_non_ascii e.text = true ∧ ∀ c ∈ e.text, c ∈ content := by
    unfold extractFor at h
    by_cases hta : ta = true
    · rw [if_pos hta] at h
      obtain ⟨elements, hccd, rfl⟩ := extract_all_inv h
      rcases List.mem_append.mp he with hmem | hmem
      · refine ⟨?_, extract_ccd_text_chars hccd e hmem⟩
        obtain ⟨rest, hrest, rfl⟩ := extract_ccd_inv hccd
        rcases List.mem_append.mp hmem with hl | hr
        · cases hlc : (PATTERNS lang).lineComment with
          | none => rw [hlc] at hl; simp at hl
          | some marker => rw [hlc] at hl; exact (lineElements_mem hl).2.1
        · obtain ⟨_, _, _, hf, _⟩ := secondElems_mem hrest e hr
          exact hf
      · obtain ⟨m, _, _, hf, rfl⟩ := stringElems_mem hmem
        exact ⟨hf, stringElems_text_chars hmem⟩
    · rw [if_neg hta] at h
      refine ⟨?_, extract_ccd_text_chars h e he⟩
      obtain ⟨rest, hrest, rfl⟩ := extract_ccd_inv h
      rcases List.mem_append.mp he with hl | hr
      · cases hlc : (PATTERNS lang).lineComment with
        | none => rw [hlc] at hl; simp at hl
        | some marker => rw [hlc] at hl; exact (lineElements_mem hl).2.1
      · obtain ⟨_, _, _, hf, _⟩ := secondElems_mem hrest e hr
        exact hf
  obtain ⟨hf, hsub⟩ := hfor
  obtain ⟨c, hct, hcf⟩ := List.any_eq_true.mp hf
  exact List.any_eq_true.mpr ⟨c, hsub c hct, hcf⟩

/-! ## C7: statistics exactness (amended) -/

theorem process_file_stats (tr : Translator) (ta dr : Bool) (f : FileInput)
    (st : ProcessingStats) :
    ((process_file tr ta dr f st).1).files_scanned = st.files_scanned + 1 ∧
    ((process_file tr ta dr f st).1).files_with_foreign_text =
      st.files_with_foreign_text + (if fileYieldsElements ta f = true then 1 else 0) := by
  unfold process_file fileYieldsElements
  by_cases h1 : should_skip_file f = true
  · simp [h1]
  · rw [Bool.not_eq_true] at h1
    by_cases h2 : f.readable = true
    · cases h3 : detect_language f.suffix with
      | none => simp [h1, h2, h3]
      | some lang =>
        cases h4 : extractFor ta f.content lang with
        | error err => simp [h1, h2, h3, h4]
        | ok es =>
          by_cases h5 : es = []
          · simp [h1, h2, h3, h4, h5]
          · simp only [h1, h2, h3, h4, h5, Bool.false_eq_true, if_false,
              Bool.not_false, if_true, Bool.and_eq_true, decide_eq_true_eq]
            split_ifs <;> simp_all
    · rw [Bool.not_eq_true] at h2
      simp [h1, h2]

theorem process_batch_stats_aux (tr : Translator) (ta dr : Bool) :
    ∀ (files : List FileInput) (st : ProcessingStats),
      (files.foldl (fun s f => (process_file tr ta dr f s).1) st).files_scanned =
        st.files_scanned + files.length ∧
      (files.foldl (fun s f => (process_file tr ta dr f s).1) st).files_with_foreign_text =
        st.files_with_foreign_text + files.countP (fun f => fileYieldsElements ta f) := by
  intro files
  induction files with
  | nil => intro st; simp
  | cons f files ih =>
    intro st
    rw [List.foldl_cons]
    obtain ⟨ihs, ihf⟩ := ih ((process_file tr ta dr f st).1)
    obtain ⟨hs, hf⟩ := process_file_stats tr ta dr f st
    constructor
    · rw [ihs, hs, List.length_cons]
      omega
    · rw [ihf, hf, List.countP_cons]
      by_cases hy : fileYieldsElements ta f = true <;> (simp [hy]; try omega)

/-- C7 (amended): after a full run over a batch, `files_scanned` equals the
number of files dispatched — ALL of them, including files later skipped as
unsupported or oversized, because the counter is incremented before the skip
checks — and `files_with_foreign_text` equals the number of files on which
extraction found at least one element; every such file does contain
foreign-script text (the converse can fail: foreign text outside extractable
positions is not counted). -/
theorem c7_stats_amended (tr : Translator) (ta dr : Bool) (files : List FileInput) :
    (process_batch tr ta dr files).files_scanned = files.length ∧
    (process_batch tr ta dr files).files_with_foreign_text =
      files.countP (fun f => fileYieldsElements ta f) ∧
    (∀ f ∈ files, fileYieldsElements ta f = true → contains_non_ascii f.content = true) := by
  obtain ⟨hs, hf⟩ := process_batch_stats_aux tr ta dr files {}
  refine ⟨by simpa using hs, by simpa using hf, ?_⟩
  intro f _ hy
  unfold fileYieldsElements at hy
  simp only [Bool.and_eq_true] at hy
  obtain ⟨⟨_, _⟩, hy⟩ := hy
  cases h3 : detect_language f.suffix with
  | none => rw [h3] at hy; simp at hy
  | some lang =>
    rw [h3] at hy
    dsimp only at hy
    cases h4 : extractFor ta f.content lang with
    | error err => rw [h4] at hy; simp at hy
    | ok es =>
      rw [h4] at hy
      dsimp only at hy
      simp only [decide_eq_true_eq] at hy
      exact extract_nonempty_foreign h4 hy

/-- C7 counterexample: a batch of two files — an unsupported `.txt` file and a
Python file whose only foreign text sits in an identifier — yields
`files_scanned = 2` (the claim predicts `2 - 1 = 1`) and
`files_with_foreign_text = 0` although the Python file does contain
foreign-script text (the claim predicts `M = 1`). -/
theorem c7_counterexample :
    (process_batch (fun t _ => t) false false
        [⟨".txt", 10, true, true, pystr "x", true⟩,
         ⟨".py", 10, true, true, pystr "x你 = 1", true⟩]).files_scanned = 2 ∧
    (2 : Nat) ≠ 1 ∧
    (process_batch (fun t _ => t) false false
        [⟨".txt", 10, true, true, pystr "x", true⟩,
         ⟨".py", 10, true, true, pystr "x你 = 1", true⟩]).files_with_foreign_text = 0 ∧
    contains_non_ascii (pystr "x你 = 1") = true ∧
    (0 : Nat) ≠ 1 :=
  ⟨by decide, by decide, by decide, by decide, by decide⟩

theorem c7_witness :
    (process_batch (fun t _ => t) false false
        [⟨".py", 10, true, true, pystr "# 你好", true⟩]).files_scanned = 1 ∧
    (process_batch (fun t _ => t) false false
        [⟨".py", 10, true, true, pystr "# 你好", true⟩]).files_with_foreign_text =
      [(⟨".py", 10, true, true, pystr "# 你好", true⟩ : FileInput)].countP
        (fun f => fileYieldsElements false f) ∧
    contains_non_ascii (pystr "# 你好") = true := by
  obtain ⟨hs, hf, hforeign⟩ := c7_stats_amended (fun t _ => t) false false
    [⟨".py", 10, true, true, pystr "# 你好", true⟩]
  exact ⟨by simpa using hs, hf,
    hforeign ⟨".py", 10, true, true, pystr "# 你好", true⟩ (by decide) (by decide)⟩

end CodeTranslator
